import Mathlib

/-!
Verification of the `turn` lexer-generator core against its specification.

The development shallowly embeds the Rust sources:
* `turn_utils/src/matchers.rs` and `turn_utils/src/set_ordering.rs`
  (character matchers and the partial set ordering),
* `turn_utils/src/regex/fsa.rs` (Thompson construction of the epsilon-NFA),
* `turn_lexer_derive/src/automata/fsa.rs` (the automaton draft in the
  derive crate),
* `turn_regex_syntax/src/lexer.rs` and `turn_regex_syntax/src/parser.rs`
  (the regex mini-language lexer and parser).

Machine integers are modelled as `Nat`; the two places where fixed-width
overflow is reachable (`u16` addition in the repetition compiler, `usize`
subtraction on index `0`) are modelled explicitly with `% 65536` and a
wrap-around guard.  Rust `panic!`-style failures (`unwrap`, out-of-bounds
indexing) are modelled by `Option`, with `none` meaning a panic.
-/

namespace Turn

/-! ## Rust `char` classification predicates

The ASCII classifiers of the Rust standard library are fully determined and
embedded directly.  The Unicode classifiers (`char::is_lowercase`,
`is_uppercase`, `is_alphabetic`, `is_numeric`, `is_alphanumeric`,
`is_whitespace`) are large table lookups; they are modelled as an explicit
parameter structure so that theorems can state exactly which facts about
those tables they rely on. -/

structure UnicodeTables where
  isLowercase : Char → Bool
  isUppercase : Char → Bool
  isAlphabetic : Char → Bool
  isNumeric : Char → Bool
  isAlphanumeric : Char → Bool
  isWhitespace : Char → Bool

/-- Rust `char::is_ascii_lowercase`: `matches!(c, 'a'..='z')`. -/
def isAsciiLowercase (c : Char) : Bool :=
  'a' ≤ c && c ≤ 'z'

/-- Rust `char::is_ascii_uppercase`: `matches!(c, 'A'..='Z')`. -/
def isAsciiUppercase (c : Char) : Bool :=
  'A' ≤ c && c ≤ 'Z'

/-- Rust `char::is_ascii_alphabetic`. -/
def isAsciiAlphabetic (c : Char) : Bool :=
  isAsciiLowercase c || isAsciiUppercase c

/-- Rust `char::is_digit(10)`. -/
def isDigit10 (c : Char) : Bool :=
  '0' ≤ c && c ≤ '9'

/-- Rust `char::is_digit(16)`. -/
def isDigit16 (c : Char) : Bool :=
  isDigit10 c || ('a' ≤ c && c ≤ 'f') || ('A' ≤ c && c ≤ 'F')

/-- Rust `char::is_ascii_alphanumeric`. -/
def isAsciiAlphanumeric (c : Char) : Bool :=
  isAsciiAlphabetic c || isDigit10 c

/-- Rust `char::is_ascii_whitespace`:
`matches!(c, ' ' | '\t' | '\n' | '\x0C' | '\r')`. -/
def isAsciiWhitespace (c : Char) : Bool :=
  c = ' ' || c = '\t' || c = '\n' || c = '\x0C' || c = '\r'

/-! ## `turn_utils::matchers` -/

/-- `turn_utils::matchers::CharacterCategory`.  The variant order matches the
source; it is significant for the enum's derived total ordering. -/
inductive CharacterCategory where
  | ASCIILowercase
  | ASCIIUppercase
  | ASCIIAlpha
  | ASCIIBinaryDigit
  | ASCIIDigit
  | ASCIIHexDigit
  | ASCIIAlphanumeric
  | ASCIIWhitespace
  | Utf8Lowercase
  | Utf8Uppercase
  | Utf8Alpha
  | Utf8Numeric
  | Utf8Alphanumeric
  | Utf8Whitespace
  | Any
deriving DecidableEq, Repr, Fintype

/-- `turn_utils::matchers::SingleMatcher`. -/
inductive SingleMatcher where
  | character : Char → SingleMatcher
  | category : CharacterCategory → SingleMatcher
deriving DecidableEq, Repr

/-- `turn_utils::matchers::Matcher`. -/
inductive Matcher where
  | single : SingleMatcher → Matcher
  | negatedSet : List SingleMatcher → Matcher
deriving DecidableEq, Repr

/-- `CharacterCategory::is_matching`, parametrised by the Unicode tables. -/
def CharacterCategory.isMatching (u : UnicodeTables) :
    CharacterCategory → Char → Bool
  | .ASCIILowercase, c => isAsciiLowercase c
  | .ASCIIUppercase, c => isAsciiUppercase c
  | .ASCIIAlpha, c => isAsciiAlphabetic c
  | .ASCIIBinaryDigit, c => c = '0' || c = '1'
  | .ASCIIDigit, c => isDigit10 c
  | .ASCIIHexDigit, c => isDigit16 c
  | .ASCIIAlphanumeric, c => isAsciiAlphanumeric c
  | .ASCIIWhitespace, c => isAsciiWhitespace c
  | .Utf8Lowercase, c => u.isLowercase c
  | .Utf8Uppercase, c => u.isUppercase c
  | .Utf8Alpha, c => u.isAlphabetic c
  | .Utf8Numeric, c => u.isNumeric c
  | .Utf8Alphanumeric, c => u.isAlphanumeric c
  | .Utf8Whitespace, c => u.isWhitespace c
  | .Any, _ => true

/-- `SingleMatcher::is_matching`. -/
def SingleMatcher.isMatching (u : UnicodeTables) : SingleMatcher → Char → Bool
  | .character pattern, c => c = pattern
  | .category cat, c => CharacterCategory.isMatching u cat c

/-- `Matcher::is_matching`. -/
def Matcher.isMatching (u : UnicodeTables) : Matcher → Char → Bool
  | .single m, c => SingleMatcher.isMatching u m c
  | .negatedSet set, c => set.all (fun x => !(x.isMatching u c))

/-! ## `turn_utils::set_ordering` -/

/-- `impl SetOrdering for CharacterCategory`: the hand-maintained partial
order table (the first arm returns `Equal` on identical tags, the wildcard
arm returns `None`; note the table has no arm mentioning `Any`). -/
def CharacterCategory.setOrdering (a b : CharacterCategory) : Option Ordering :=
  if a = b then some .eq
  else
    match a, b with
    -- ASCIIAlphanumeric
    | .ASCIIAlphanumeric, .Utf8Alphanumeric => some .lt
    | .ASCIIAlphanumeric, .ASCIIAlpha
    | .ASCIIAlphanumeric, .ASCIIBinaryDigit
    | .ASCIIAlphanumeric, .ASCIIDigit
    | .ASCIIAlphanumeric, .ASCIIHexDigit
    | .ASCIIAlphanumeric, .ASCIILowercase
    | .ASCIIAlphanumeric, .ASCIIUppercase => some .gt
    -- ASCIIAlpha
    | .ASCIIAlpha, .ASCIIAlphanumeric
    | .ASCIIAlpha, .Utf8Alphanumeric
    | .ASCIIAlpha, .Utf8Alpha => some .lt
    | .ASCIIAlpha, .ASCIILowercase
    | .ASCIIAlpha, .ASCIIUppercase => some .gt
    -- ASCIIBinaryDigit
    | .ASCIIBinaryDigit, .ASCIIAlphanumeric
    | .ASCIIBinaryDigit, .ASCIIDigit
    | .ASCIIBinaryDigit, .ASCIIHexDigit
    | .ASCIIBinaryDigit, .Utf8Alphanumeric
    | .ASCIIBinaryDigit, .Utf8Numeric => some .lt
    -- ASCIIDigit
    | .ASCIIDigit, .ASCIIAlphanumeric
    | .ASCIIDigit, .ASCIIHexDigit
    | .ASCIIDigit, .Utf8Alphanumeric
    | .ASCIIDigit, .Utf8Numeric => some .lt
    | .ASCIIDigit, .ASCIIBinaryDigit => some .gt
    -- ASCIIHexDigit
    | .ASCIIHexDigit, .ASCIIAlphanumeric
    | .ASCIIHexDigit, .Utf8Alphanumeric => some .lt
    | .ASCIIHexDigit, .ASCIIBinaryDigit
    | .ASCIIHexDigit, .ASCIIDigit => some .gt
    -- ASCIILowercase
    | .ASCIILowercase, .ASCIIAlphanumeric
    | .ASCIILowercase, .ASCIIAlpha
    | .ASCIILowercase, .Utf8Alphanumeric
    | .ASCIILowercase, .Utf8Alpha
    | .ASCIILowercase, .Utf8Lowercase => some .lt
    -- ASCIIUppercase
    | .ASCIIUppercase, .ASCIIAlphanumeric
    | .ASCIIUppercase, .ASCIIAlpha
    | .ASCIIUppercase, .Utf8Alphanumeric
    | .ASCIIUppercase, .Utf8Alpha
    | .ASCIIUppercase, .Utf8Uppercase => some .lt
    -- ASCIIWhitespace
    | .ASCIIWhitespace, .Utf8Whitespace => some .lt
    -- Utf8Alphanumeric
    | .Utf8Alphanumeric, .ASCIIAlphanumeric
    | .Utf8Alphanumeric, .ASCIIAlpha
    | .Utf8Alphanumeric, .ASCIIBinaryDigit
    | .Utf8Alphanumeric, .ASCIIDigit
    | .Utf8Alphanumeric, .ASCIIHexDigit
    | .Utf8Alphanumeric, .ASCIILowercase
    | .Utf8Alphanumeric, .ASCIIUppercase
    | .Utf8Alphanumeric, .Utf8Alpha
    | .Utf8Alphanumeric, .Utf8Lowercase
    | .Utf8Alphanumeric, .Utf8Numeric
    | .Utf8Alphanumeric, .Utf8Uppercase => some .gt
    -- Utf8Alpha
    | .Utf8Alpha, .Utf8Alphanumeric => some .lt
    | .Utf8Alpha, .ASCIIAlpha
    | .Utf8Alpha, .ASCIILowercase
    | .Utf8Alpha, .ASCIIUppercase
    | .Utf8Alpha, .Utf8Lowercase
    | .Utf8Alpha, .Utf8Uppercase => some .gt
    -- Utf8Lowercase
    | .Utf8Lowercase, .Utf8Alphanumeric
    | .Utf8Lowercase, .Utf8Alpha => some .lt
    | .Utf8Lowercase, .ASCIILowercase => some .gt
    -- Utf8Numeric
    | .Utf8Numeric, .Utf8Alphanumeric => some .lt
    | .Utf8Numeric, .ASCIIBinaryDigit
    | .Utf8Numeric, .ASCIIDigit => some .gt
    -- Utf8Uppercase
    | .Utf8Uppercase, .Utf8Alphanumeric
    | .Utf8Uppercase, .Utf8Alpha => some .lt
    | .Utf8Uppercase, .ASCIIUppercase => some .gt
    -- Utf8Whitespace
    | .Utf8Whitespace, .ASCIIWhitespace => some .gt
    | _, _ => none

/-- `impl SetOrdering for SingleMatcher`. -/
def SingleMatcher.setOrdering (u : UnicodeTables) :
    SingleMatcher → SingleMatcher → Option Ordering
  | .character x, .character y => if x = y then some .eq else none
  | .character ch, .category cat =>
      if CharacterCategory.isMatching u cat ch then some .lt else none
  | .category cat, .character ch =>
      if CharacterCategory.isMatching u cat ch then some .gt else none
  | .category category1, .category category2 =>
      category1.setOrdering category2

/-- The `is_superset` closure inside the `NegatedSet`/`NegatedSet` arm of
`impl SetOrdering for Matcher`: every member of `lhs` is subset-or-equal to
some member of `rhs`. -/
def negSetSuperset (u : UnicodeTables) (lhs rhs : List SingleMatcher) : Bool :=
  lhs.all (fun x =>
    rhs.any (fun y =>
      match SingleMatcher.setOrdering u x y with
      | some .eq | some .lt => true
      | _ => false))

/-- `impl SetOrdering for Matcher`. -/
def Matcher.setOrdering (u : UnicodeTables) : Matcher → Matcher → Option Ordering
  | .single lhs, .single rhs => SingleMatcher.setOrdering u lhs rhs
  | .single sm, .negatedSet ns =>
      -- if any subset of the category is excluded, the negated set is not
      -- comparable
      if ns.any (fun x => (SingleMatcher.setOrdering u sm x).isSome) then none
      else some .lt
  | .negatedSet ns, .single sm =>
      if ns.any (fun x => (SingleMatcher.setOrdering u sm x).isSome) then none
      else some .gt
  | .negatedSet lhs, .negatedSet rhs =>
      match negSetSuperset u lhs rhs, negSetSuperset u rhs lhs with
      | true, true => some .eq
      | true, false => some .gt
      | false, true => some .lt
      | false, false => none


/-! ## ASCII classifier facts and a concrete Unicode-table instantiation -/

theorem asciiLower_alpha {c : Char} (h : isAsciiLowercase c = true) :
    isAsciiAlphabetic c = true := by
  simp [isAsciiAlphabetic, h]

theorem asciiUpper_alpha {c : Char} (h : isAsciiUppercase c = true) :
    isAsciiAlphabetic c = true := by
  simp [isAsciiAlphabetic, h]

theorem asciiAlpha_alnum {c : Char} (h : isAsciiAlphabetic c = true) :
    isAsciiAlphanumeric c = true := by
  simp [isAsciiAlphanumeric, h]

theorem asciiDigit_alnum {c : Char} (h : isDigit10 c = true) :
    isAsciiAlphanumeric c = true := by
  simp [isAsciiAlphanumeric, h]

theorem asciiBinary_digit {c : Char} (h : (c = '0' || c = '1') = true) :
    isDigit10 c = true := by
  simp only [Bool.or_eq_true, decide_eq_true_eq] at h
  rcases h with h | h <;> subst h <;> decide

theorem asciiDigit_hex {c : Char} (h : isDigit10 c = true) :
    isDigit16 c = true := by
  simp [isDigit16, h]

theorem asciiHex_alnum {c : Char} (h : isDigit16 c = true) :
    isAsciiAlphanumeric c = true := by
  simp only [isDigit16, Bool.or_eq_true, Bool.and_eq_true, decide_eq_true_eq] at h
  rcases h with (h | ⟨h1, h2⟩) | ⟨h1, h2⟩
  · exact asciiDigit_alnum h
  · refine asciiAlpha_alnum (asciiLower_alpha ?_)
    simp only [isAsciiLowercase, Bool.and_eq_true, decide_eq_true_eq]
    exact ⟨h1, le_trans h2 (by decide)⟩
  · refine asciiAlpha_alnum (asciiUpper_alpha ?_)
    simp only [isAsciiUppercase, Bool.and_eq_true, decide_eq_true_eq]
    exact ⟨h1, le_trans h2 (by decide)⟩

/-- The facts about the Rust standard library's Unicode classification tables
that the hand-written category order relies on.  Each field is a documented
property of the Unicode character database (e.g. every ASCII digit is in the
`Number` classes; `alphanumeric = alphabetic or numeric`). -/
structure Faithful (u : UnicodeTables) : Prop where
  asciiLowerSub : ∀ c, isAsciiLowercase c = true → u.isLowercase c = true
  asciiUpperSub : ∀ c, isAsciiUppercase c = true → u.isUppercase c = true
  asciiAlphaSub : ∀ c, isAsciiAlphabetic c = true → u.isAlphabetic c = true
  asciiNumericSub : ∀ c, isDigit10 c = true → u.isNumeric c = true
  asciiAlnumSub : ∀ c, isAsciiAlphanumeric c = true → u.isAlphanumeric c = true
  asciiWsSub : ∀ c, isAsciiWhitespace c = true → u.isWhitespace c = true
  lowerAlpha : ∀ c, u.isLowercase c = true → u.isAlphabetic c = true
  upperAlpha : ∀ c, u.isUppercase c = true → u.isAlphabetic c = true
  alphaAlnum : ∀ c, u.isAlphabetic c = true → u.isAlphanumeric c = true
  numericAlnum : ∀ c, u.isNumeric c = true → u.isAlphanumeric c = true

/-- A concrete instantiation of the Unicode tables that restricts every
Unicode class to its ASCII part.  It satisfies `Faithful` and agrees with the
real tables on all ASCII characters, which is all the concrete evaluations
below touch. -/
def asciiTables : UnicodeTables where
  isLowercase := isAsciiLowercase
  isUppercase := isAsciiUppercase
  isAlphabetic := isAsciiAlphabetic
  isNumeric := isDigit10
  isAlphanumeric := isAsciiAlphanumeric
  isWhitespace := isAsciiWhitespace

theorem asciiTables_faithful : Faithful asciiTables where
  asciiLowerSub _ h := h
  asciiUpperSub _ h := h
  asciiAlphaSub _ h := h
  asciiNumericSub _ h := h
  asciiAlnumSub _ h := h
  asciiWsSub _ h := h
  lowerAlpha _ h := asciiLower_alpha h
  upperAlpha _ h := asciiUpper_alpha h
  alphaAlnum _ h := asciiAlpha_alnum h
  numericAlnum _ h := asciiDigit_alnum h


/-! ## Soundness and algebraic facts about the set ordering -/

set_option maxHeartbeats 1600000 in
/-- The category table yields `Equal` exactly on the diagonal. -/
theorem catOrdering_eq_iff (a b : CharacterCategory) :
    a.setOrdering b = some .eq ↔ a = b := by
  revert a b; decide

set_option maxHeartbeats 1600000 in
/-- The category table is antisymmetric. -/
theorem catOrdering_gt_iff (a b : CharacterCategory) :
    a.setOrdering b = some .gt ↔ b.setOrdering a = some .lt := by
  revert a b; decide

set_option maxHeartbeats 2000000 in
/-- `Less` entries of the category table denote genuine set inclusion,
given the `Faithful` facts about the Unicode tables. -/
theorem catOrdering_lt_sound (u : UnicodeTables) (hu : Faithful u)
    (a b : CharacterCategory) (hab : a.setOrdering b = some .lt)
    (c : Char) (hc : a.isMatching u c = true) : b.isMatching u c = true := by
  cases a <;> cases b <;>
    first
      | exact absurd hab (by decide)
      | (simp only [CharacterCategory.isMatching] at hc ⊢
         first
           | exact hu.asciiLowerSub c hc
           | exact hu.asciiUpperSub c hc
           | exact hu.asciiAlphaSub c hc
           | exact hu.asciiNumericSub c hc
           | exact hu.asciiAlnumSub c hc
           | exact hu.asciiWsSub c hc
           | exact hu.lowerAlpha c hc
           | exact hu.upperAlpha c hc
           | exact hu.alphaAlnum c hc
           | exact hu.numericAlnum c hc
           | exact asciiLower_alpha hc
           | exact asciiUpper_alpha hc
           | exact asciiAlpha_alnum hc
           | exact asciiDigit_alnum hc
           | exact asciiBinary_digit hc
           | exact asciiDigit_hex hc
           | exact asciiHex_alnum hc
           | exact hu.asciiAlnumSub c (asciiAlpha_alnum hc)
           | exact hu.asciiAlphaSub c (asciiLower_alpha hc)
           | exact hu.asciiAlphaSub c (asciiUpper_alpha hc)
           | exact hu.asciiNumericSub c (asciiBinary_digit hc)
           | exact hu.asciiAlnumSub c (asciiDigit_alnum hc)
           | exact hu.asciiAlnumSub c (asciiHex_alnum hc)
           | exact hu.asciiAlnumSub c (asciiDigit_alnum (asciiBinary_digit hc))
           | exact asciiDigit_hex (asciiBinary_digit hc)
           | exact asciiDigit_alnum (asciiBinary_digit hc)
           | exact asciiAlpha_alnum (asciiLower_alpha hc)
           | exact asciiAlpha_alnum (asciiUpper_alpha hc)
           | exact hu.asciiAlnumSub c (asciiAlpha_alnum (asciiLower_alpha hc))
           | exact hu.asciiAlnumSub c (asciiAlpha_alnum (asciiUpper_alpha hc))
           | exact hu.alphaAlnum c (hu.lowerAlpha c hc)
           | exact hu.alphaAlnum c (hu.upperAlpha c hc))

theorem smOrdering_refl (u : UnicodeTables) (s : SingleMatcher) :
    SingleMatcher.setOrdering u s s = some .eq := by
  cases s with
  | character x => simp [SingleMatcher.setOrdering]
  | category k =>
      simp only [SingleMatcher.setOrdering]
      exact (catOrdering_eq_iff k k).mpr rfl

theorem smOrdering_swap (u : UnicodeTables) (a b : SingleMatcher) :
    SingleMatcher.setOrdering u a b = some .lt ↔
      SingleMatcher.setOrdering u b a = some .gt := by
  cases a <;> cases b <;> simp only [SingleMatcher.setOrdering]
  case character.character x y =>
    rcases eq_or_ne x y with h | h
    · subst h; simp
    · simp [h, Ne.symm h]
  case character.category ch cat => split <;> simp
  case category.character cat ch => split <;> simp
  case category.category k1 k2 =>
    constructor
    · intro h; exact (catOrdering_gt_iff k2 k1).mpr h
    · intro h; exact (catOrdering_gt_iff k2 k1).mp h

theorem smOrdering_lt_sound (u : UnicodeTables) (hu : Faithful u)
    (a b : SingleMatcher) (hab : SingleMatcher.setOrdering u a b = some .lt)
    (c : Char) (hc : SingleMatcher.isMatching u a c = true) :
    SingleMatcher.isMatching u b c = true := by
  cases a <;> cases b <;>
    simp only [SingleMatcher.setOrdering, SingleMatcher.isMatching] at hab hc ⊢
  case character.character x y => split at hab <;> simp_all
  case character.category x k =>
    split at hab
    · next hmatch =>
        have hcx : c = x := by simpa using hc
        rw [hcx]; exact hmatch
    · simp_all
  case category.character k x => split at hab <;> simp_all
  case category.category k1 k2 => exact catOrdering_lt_sound u hu k1 k2 hab c hc

theorem smOrdering_eq_sound (u : UnicodeTables) (a b : SingleMatcher)
    (hab : SingleMatcher.setOrdering u a b = some .eq) (c : Char) :
    SingleMatcher.isMatching u a c = SingleMatcher.isMatching u b c := by
  cases a <;> cases b <;> simp only [SingleMatcher.setOrdering] at hab
  case character.character x y => split at hab <;> simp_all
  case character.category x k => split at hab <;> simp_all
  case category.character k x => split at hab <;> simp_all
  case category.category k1 k2 => rw [(catOrdering_eq_iff k1 k2).mp hab]

theorem smOrdering_gt_sound (u : UnicodeTables) (hu : Faithful u)
    (a b : SingleMatcher) (hab : SingleMatcher.setOrdering u a b = some .gt)
    (c : Char) (hc : SingleMatcher.isMatching u b c = true) :
    SingleMatcher.isMatching u a c = true :=
  smOrdering_lt_sound u hu b a ((smOrdering_swap u b a).mpr hab) c hc

/-- If every member of `l` is subset-or-equal to a member of `r`, then the
negated set over `r` is included in the negated set over `l`. -/
theorem negSuperset_sound (u : UnicodeTables) (hu : Faithful u)
    (l r : List SingleMatcher) (h : negSetSuperset u l r = true) (c : Char)
    (hc : Matcher.isMatching u (.negatedSet r) c = true) :
    Matcher.isMatching u (.negatedSet l) c = true := by
  simp only [Matcher.isMatching, List.all_eq_true, Bool.not_eq_true'] at hc ⊢
  intro x hx
  simp only [negSetSuperset, List.all_eq_true, List.any_eq_true] at h
  obtain ⟨y, hy, hxy⟩ := h x hx
  rcases hord : SingleMatcher.setOrdering u x y with _ | o
  · rw [hord] at hxy; exact absurd hxy (by simp)
  · cases o with
    | lt =>
        by_contra hxc
        rw [Bool.not_eq_false] at hxc
        have := smOrdering_lt_sound u hu x y hord c hxc
        rw [hc y hy] at this
        exact Bool.false_ne_true this
    | eq =>
        rw [smOrdering_eq_sound u x y hord c]
        exact hc y hy
    | gt => rw [hord] at hxy; exact absurd hxy (by simp)

theorem matcherOrdering_refl (u : UnicodeTables) (a : Matcher) :
    Matcher.setOrdering u a a = some .eq := by
  cases a with
  | single s => simpa [Matcher.setOrdering] using smOrdering_refl u s
  | negatedSet l =>
      have hsup : negSetSuperset u l l = true := by
        simp only [negSetSuperset, List.all_eq_true, List.any_eq_true]
        intro x hx
        exact ⟨x, hx, by rw [smOrdering_refl u x]⟩
      simp [Matcher.setOrdering, hsup]

theorem matcherOrdering_antisymm (u : UnicodeTables) (a b : Matcher) :
    Matcher.setOrdering u a b = some .lt ↔ Matcher.setOrdering u b a = some .gt := by
  cases a <;> cases b <;> simp only [Matcher.setOrdering]
  case single.single s t => exact smOrdering_swap u s t
  case single.negatedSet s l => split <;> simp
  case negatedSet.single l s => split <;> simp
  case negatedSet.negatedSet l r =>
    cases h1 : negSetSuperset u l r <;> cases h2 : negSetSuperset u r l <;> simp

/-! ## Claim C1 -/

/-- C1 (counterexample): `set_ordering` over `Matcher` is *not* semantically
sound with respect to `is_matching`.  `ASCIIAlpha` and `ASCIIHexDigit` are
incomparable in the category table yet overlap at `'a'`, so the
`SingleMatcher`-versus-`NegatedSet` rule reports
`SingleMatcher(Category(ASCIIAlpha)) < NegatedSet([Category(ASCIIHexDigit)])`
even though `'a'` is accepted by the left matcher and rejected by the right
one.  All evaluations involved are ASCII-only, hence independent of the
Unicode tables. -/
theorem c1_counterexample :
    Matcher.setOrdering asciiTables (.single (.category .ASCIIAlpha))
        (.negatedSet [.category .ASCIIHexDigit]) = some .lt ∧
    Matcher.isMatching asciiTables (.single (.category .ASCIIAlpha)) 'a' = true ∧
    Matcher.isMatching asciiTables
        (.negatedSet [.category .ASCIIHexDigit]) 'a' = false := by
  decide

/-- C1 (amended): the soundness claim holds for every pair of matchers of the
same shape — two `SingleMatcher`s or two `NegatedSet`s — for any Unicode
tables satisfying the documented inclusion facts; the mixed
`SingleMatcher`/`NegatedSet` rules are the only unsound ones. -/
theorem c1_setOrdering_sound_same_shape (u : UnicodeTables) (hu : Faithful u)
    (a b : Matcher)
    (hshape : (∃ s t, a = .single s ∧ b = .single t) ∨
      (∃ l r, a = .negatedSet l ∧ b = .negatedSet r)) (c : Char) :
    (Matcher.setOrdering u a b = some .lt →
      Matcher.isMatching u a c = true → Matcher.isMatching u b c = true) ∧
    (Matcher.setOrdering u a b = some .eq →
      Matcher.isMatching u a c = Matcher.isMatching u b c) ∧
    (Matcher.setOrdering u a b = some .gt →
      Matcher.isMatching u b c = true → Matcher.isMatching u a c = true) := by
  rcases hshape with ⟨s, t, ha, hb⟩ | ⟨l, r, ha, hb⟩
  · subst ha; subst hb
    refine ⟨?_, ?_, ?_⟩
    · intro hab hc
      exact smOrdering_lt_sound u hu s t (by simpa [Matcher.setOrdering] using hab) c hc
    · intro hab
      exact smOrdering_eq_sound u s t (by simpa [Matcher.setOrdering] using hab) c
    · intro hab hc
      exact smOrdering_gt_sound u hu s t (by simpa [Matcher.setOrdering] using hab) c hc
  · subst ha; subst hb
    refine ⟨?_, ?_, ?_⟩
    · intro hab hc
      have hlr : negSetSuperset u r l = true := by
        simp only [Matcher.setOrdering] at hab
        cases h1 : negSetSuperset u l r <;> cases h2 : negSetSuperset u r l <;>
          simp [h1, h2] at hab ⊢
      exact negSuperset_sound u hu r l hlr c hc
    · intro hab
      have hpair : negSetSuperset u l r = true ∧ negSetSuperset u r l = true := by
        simp only [Matcher.setOrdering] at hab
        cases h1 : negSetSuperset u l r <;> cases h2 : negSetSuperset u r l <;>
          simp [h1, h2] at hab ⊢
      have h1 := negSuperset_sound u hu l r hpair.1 c
      have h2 := negSuperset_sound u hu r l hpair.2 c
      cases hcl : Matcher.isMatching u (.negatedSet l) c <;>
        cases hcr : Matcher.isMatching u (.negatedSet r) c
      · rfl
      · rw [h1 hcr] at hcl; exact hcl.symm
      · rw [h2 hcl] at hcr; exact hcr
      · rfl
    · intro hab hc
      have hlr : negSetSuperset u l r = true := by
        simp only [Matcher.setOrdering] at hab
        cases h1 : negSetSuperset u l r <;> cases h2 : negSetSuperset u r l <;>
          simp [h1, h2] at hab ⊢
      exact negSuperset_sound u hu l r hlr c hc

/-- Witness for `c1_setOrdering_sound_same_shape` at a concrete input. -/
theorem c1_setOrdering_sound_same_shape_witness :
    (Matcher.setOrdering asciiTables (.single (.category .ASCIIDigit))
        (.single (.category .ASCIIHexDigit)) = some .lt →
      Matcher.isMatching asciiTables (.single (.category .ASCIIDigit)) '5' = true →
      Matcher.isMatching asciiTables (.single (.category .ASCIIHexDigit)) '5' = true) ∧
    (Matcher.setOrdering asciiTables (.single (.category .ASCIIDigit))
        (.single (.category .ASCIIHexDigit)) = some .eq →
      Matcher.isMatching asciiTables (.single (.category .ASCIIDigit)) '5' =
        Matcher.isMatching asciiTables (.single (.category .ASCIIHexDigit)) '5') ∧
    (Matcher.setOrdering asciiTables (.single (.category .ASCIIDigit))
        (.single (.category .ASCIIHexDigit)) = some .gt →
      Matcher.isMatching asciiTables (.single (.category .ASCIIHexDigit)) '5' = true →
      Matcher.isMatching asciiTables (.single (.category .ASCIIDigit)) '5' = true) :=
  c1_setOrdering_sound_same_shape asciiTables asciiTables_faithful
    (.single (.category .ASCIIDigit)) (.single (.category .ASCIIHexDigit))
    (Or.inl ⟨_, _, rfl, rfl⟩) '5'

/-! ## Claim C4 -/

/-- C4: `set_ordering` over `Matcher` is reflexive
(`set_ordering(a,a) = Some(Equal)`) and antisymmetric
(`set_ordering(a,b) = Some(Less)` iff `set_ordering(b,a) = Some(Greater)`),
for any Unicode tables. -/
theorem c4_setOrdering_refl_antisymm (u : UnicodeTables) (a b : Matcher) :
    Matcher.setOrdering u a a = some .eq ∧
    (Matcher.setOrdering u a b = some .lt ↔
      Matcher.setOrdering u b a = some .gt) :=
  ⟨matcherOrdering_refl u a, matcherOrdering_antisymm u a b⟩

/-! ## Claim C5 -/

/-- C5 (counterexample): with `L = [Character('a')]` and
`R = [Character('a'), Character('b')]` every member of `L` is subset-or-equal
to a member of `R`, but `set_ordering(NegatedSet(L), NegatedSet(R))` is
`Some(Greater)` — not `Less` or `Equal` as the claim states. -/
theorem c5_counterexample :
    negSetSuperset asciiTables [.character 'a']
        [.character 'a', .character 'b'] = true ∧
    Matcher.setOrdering asciiTables (.negatedSet [.character 'a'])
        (.negatedSet [.character 'a', .character 'b']) = some .gt ∧
    Matcher.setOrdering asciiTables (.negatedSet [.character 'a'])
        (.negatedSet [.character 'a', .character 'b']) ≠ some .lt ∧
    Matcher.setOrdering asciiTables (.negatedSet [.character 'a'])
        (.negatedSet [.character 'a', .character 'b']) ≠ some .eq := by
  decide

/-- C5 (amended): if every member of the left exclusion set `L` is
subset-or-equal to some member of the right exclusion set `R`, then
`set_ordering(NegatedSet(L), NegatedSet(R))` is `Greater` or `Equal` — the
left negated set excludes fewer-or-equal characters, so it is the
greater-or-equal set. -/
theorem c5_negatedSet_containment (u : UnicodeTables) (L R : List SingleMatcher)
    (h : negSetSuperset u L R = true) :
    Matcher.setOrdering u (.negatedSet L) (.negatedSet R) = some .gt ∨
    Matcher.setOrdering u (.negatedSet L) (.negatedSet R) = some .eq := by
  simp only [Matcher.setOrdering, h]
  cases hr : negSetSuperset u R L <;> simp

/-- Witness for `c5_negatedSet_containment` at a concrete input. -/
theorem c5_negatedSet_containment_witness :
    Matcher.setOrdering asciiTables (.negatedSet [.character 'a'])
        (.negatedSet [.character 'a', .character 'b']) = some .gt ∨
    Matcher.setOrdering asciiTables (.negatedSet [.character 'a'])
        (.negatedSet [.character 'a', .character 'b']) = some .eq :=
  c5_negatedSet_containment asciiTables [.character 'a']
    [.character 'a', .character 'b'] (by decide)

/-! ## Claim C6 -/

/-- C6: the claim describes the intended semantics (`Any` matches every
character, so it is the universal superset), but the category table in
`set_ordering` has no arm mentioning `Any`: every comparison of `Any` against
a different category falls through to the wildcard arm and yields `None`
instead of `Greater`/`Less`.  The theorem records the code's actual behaviour
on the whole table and the semantic facts that force `Any` to be a strict
superset of e.g. `ASCIIDigit`. -/
theorem c6_any_missing_from_table :
    (∀ c : CharacterCategory,
      CharacterCategory.setOrdering .Any c =
        if c = .Any then some .eq else none) ∧
    (∀ c : CharacterCategory,
      CharacterCategory.setOrdering c .Any =
        if c = .Any then some .eq else none) ∧
    (∀ (u : UnicodeTables) (ch : Char),
      CharacterCategory.isMatching u .Any ch = true) ∧
    CharacterCategory.isMatching asciiTables .ASCIIDigit 'x' = false :=
  ⟨by decide, by decide, fun _ _ => rfl, by decide⟩

/-! ## `turn_lexer_derive::automata::fsa` -/

/-- `turn_lexer_derive::matchers::CharacterCategory` (declared in a different
order than the `turn_utils` enum, and without an `Any` variant). -/
inductive DCharacterCategory where
  | ASCIIAlphanumeric
  | ASCIIAlpha
  | ASCIIBinaryDigit
  | ASCIIDigit
  | ASCIIHexDigit
  | ASCIILowercase
  | ASCIIUppercase
  | ASCIIWhitespace
  | Utf8Alphanumeric
  | Utf8Alpha
  | Utf8Lowercase
  | Utf8Numeric
  | Utf8Uppercase
  | Utf8Whitespace
deriving DecidableEq, Repr

/-- `turn_lexer_derive::matchers::CharacterCategory::is_matching`. -/
def DCharacterCategory.isMatching (u : UnicodeTables) :
    DCharacterCategory → Char → Bool
  | .ASCIIAlphanumeric, c => isAsciiAlphanumeric c
  | .ASCIIAlpha, c => isAsciiAlphabetic c
  | .ASCIIBinaryDigit, c => c = '0' || c = '1'
  | .ASCIIDigit, c => isDigit10 c
  | .ASCIIHexDigit, c => isDigit16 c
  | .ASCIILowercase, c => isAsciiLowercase c
  | .ASCIIUppercase, c => isAsciiUppercase c
  | .ASCIIWhitespace, c => isAsciiWhitespace c
  | .Utf8Alphanumeric, c => u.isAlphanumeric c
  | .Utf8Alpha, c => u.isAlphabetic c
  | .Utf8Lowercase, c => u.isLowercase c
  | .Utf8Numeric, c => u.isNumeric c
  | .Utf8Uppercase, c => u.isUppercase c
  | .Utf8Whitespace, c => u.isWhitespace c

/-- `turn_lexer_derive::matchers::Matcher`. -/
inductive DMatcher where
  | character : Char → DMatcher
  | category : DCharacterCategory → DMatcher
  | any
deriving DecidableEq, Repr

/-- `turn_lexer_derive::matchers::Matcher::is_matching`. -/
def DMatcher.isMatching (u : UnicodeTables) : DMatcher → Char → Bool
  | .character pattern, c => c = pattern
  | .category cat, c => DCharacterCategory.isMatching u cat c
  | .any, _ => true

/-- `turn_lexer_derive::automata::fsa::FSAState`.  The `BTreeMap` of
transitions is modelled as an association list; `BTreeSet<usize>` as a
`Finset ℕ`. -/
structure DFSAState (τ : Type) where
  transitions : List (Option DMatcher × Finset ℕ)
  token : Option τ
deriving DecidableEq

/-- `turn_lexer_derive::automata::fsa::FSA`. -/
structure DFSA (τ : Type) where
  states : List (DFSAState τ)
deriving DecidableEq

/-- Models the error value
`syn::Error::new(span, "Token source string must not be empty.")`
from `FSA::from_token`. -/
inductive DeriveError where
  | emptySource
deriving DecidableEq, Repr

/-- `FSA::from_token`: a chain automaton for a literal token source. -/
def DFSA.fromToken {τ : Type} (result : τ) (source : List Char) :
    Except DeriveError (DFSA τ) :=
  if source.isEmpty then .error .emptySource
  else
    .ok ⟨(source.enum.map
        (fun p => ⟨[(some (.character p.2), {p.1 + 1})], none⟩)) ++
      [⟨[], some result⟩]⟩

/-- `FSAState::transition` from the derive crate.  The source initialises an
*immutable* `result = BTreeSet::new()` and in the loop calls
`result.union(next_states)`; `BTreeSet::union` returns a fresh iterator which
is immediately discarded, so the loop never modifies `result`.  Both match
arms therefore leave the accumulator unchanged. -/
def DFSAState.transition (u : UnicodeTables) {τ : Type} (s : DFSAState τ)
    (c : Char) : Finset ℕ :=
  s.transitions.foldl
    (fun result p =>
      match p.1 with
      | some m => if DMatcher.isMatching u m c then result else result
      | none => result)
    ∅

/-- `FSA::transition`; `self.states[state]` panics when out of bounds, which
is modelled by `none`. -/
def DFSA.transition (u : UnicodeTables) {τ : Type} (fsa : DFSA τ)
    (state : Nat) (c : Char) : Option (Finset ℕ) :=
  (fsa.states.get? state).map (fun s => DFSAState.transition u s c)

theorem foldl_of_step_id {α β : Type} (f : α → β → α)
    (hf : ∀ a b, f a b = a) :
    ∀ (l : List β) (init : α), l.foldl f init = init := by
  intro l
  induction l with
  | nil => intro init; rfl
  | cons hd tl ih =>
      intro init
      rw [List.foldl_cons, hf]
      exact ih init

/-- The loop body of `FSAState::transition` returns its accumulator
unchanged in every arm. -/
theorem dfsaState_transition_empty (u : UnicodeTables) {τ : Type}
    (s : DFSAState τ) (c : Char) : DFSAState.transition u s c = ∅ := by
  refine foldl_of_step_id _ (fun a p => ?_) s.transitions ∅
  rcases p with ⟨m?, next⟩
  cases m? <;> simp

/-! ## Claim C9 -/

/-- C9: in the `turn_lexer_derive` automaton draft, `FSA::transition` returns
the empty set for every in-bounds state index and every character, because
`FSAState::transition` discards the iterators returned by `BTreeSet::union`
and never adds anything to its (immutable) result set. -/
theorem c9_transition_always_empty (u : UnicodeTables) {τ : Type}
    (fsa : DFSA τ) (state : Nat) (c : Char) (h : state < fsa.states.length) :
    DFSA.transition u fsa state c = some ∅ := by
  have hget := List.get?_eq_get h
  unfold DFSA.transition
  rw [hget, Option.map_some']
  exact congrArg some (dfsaState_transition_empty u _ c)

/-- Witness for `c9_transition_always_empty`: a two-state literal automaton
(the shape `FSA::from_token` builds), queried at its start state with a
character that matches its only transition. -/
theorem c9_transition_always_empty_witness :
    DFSA.transition asciiTables
      (⟨[⟨[(some (.character 'a'), {1})], none⟩, ⟨[], some 7⟩]⟩ : DFSA Nat)
      0 'a' = some ∅ :=
  c9_transition_always_empty asciiTables _ 0 'a' (by decide)

/-! ## `turn_utils::regex::mir` and `turn_utils::regex::fsa`

`HashMap<Option<Matcher>, FixedBitSet>` is modelled as an association list
with replace-on-insert semantics (iteration order is irrelevant to every
property below), and `FixedBitSet` as a `Finset ℕ` (capacity bookkeeping is
elided for `mir_to_fsa_vec` and `compile`, where every `insert` stays within
the allocated capacity; the one out-of-capacity `insert` — in `FSA::union` —
is modelled explicitly as a panic).
Rust panics — `unwrap()` on `None`, out-of-bounds `Vec` indexing — are
modelled by `Option.none`. -/

/-- `turn_utils::regex::mir::SetMember`. -/
inductive MSetMember where
  | character : Char → MSetMember
  | category : CharacterCategory → MSetMember
deriving DecidableEq, Repr

/-- `impl From<&mir::SetMember> for SingleMatcher` (convert.rs). -/
def MSetMember.toSingleMatcher : MSetMember → SingleMatcher
  | .character c => .character c
  | .category cat => .category cat

/-- `turn_utils::regex::mir::MIR`; `Sequence(&str)` carries its characters,
and the `u16` repetition bounds are carried as `Nat`. -/
inductive MIR where
  | category : CharacterCategory → MIR
  | sequence : List Char → MIR
  | repetition : MIR → Nat → Option Nat → MIR
  | alternation : List MIR → MIR
  | set : List MSetMember → MIR
  | negatedSet : List MSetMember → MIR
  | concatenation : List MIR → MIR

/-- `turn_utils::regex::fsa::FSAState`. -/
structure RFSAState (τ : Type) where
  transitions : List (Option Matcher × Finset ℕ)
  token : Option τ
deriving DecidableEq

/-- `turn_utils::regex::fsa::FSA`. -/
structure RFSA (τ : Type) where
  states : List (RFSAState τ)
deriving DecidableEq

/-- `HashMap::insert`: replaces any existing binding of the key. -/
def hmInsert (k : Option Matcher) (v : Finset ℕ)
    (m : List (Option Matcher × Finset ℕ)) : List (Option Matcher × Finset ℕ) :=
  (k, v) :: m.filter (fun p => p.1 ≠ k)

/-- `HashMap::remove`. -/
def hmRemove (k : Option Matcher)
    (m : List (Option Matcher × Finset ℕ)) : List (Option Matcher × Finset ℕ) :=
  m.filter (fun p => p.1 ≠ k)

/-- `HashMap` lookup (for stating properties of the built automata). -/
def hmGet (k : Option Matcher)
    (m : List (Option Matcher × Finset ℕ)) : Option (Finset ℕ) :=
  (m.find? (fun p => p.1 = k)).map (fun p => p.2)

/-- `FSAState::new`. -/
def RFSAState.new {τ : Type} : RFSAState τ := ⟨[], none⟩

/-- `FSAState::with_single_transition`. -/
def RFSAState.withSingleTransition {τ : Type} (matcher : Option Matcher)
    (next : Nat) : RFSAState τ :=
  ⟨[(matcher, {next})], none⟩

/-- `FSAState::with_single_matcher`. -/
def RFSAState.withSingleMatcher {τ : Type} (matcher : Option Matcher)
    (nextStates : Finset ℕ) : RFSAState τ :=
  ⟨[(matcher, nextStates)], none⟩

/-- Apply `f` to the last element of a list (`last_mut().map(...)`). -/
def setLast {α : Type} (f : α → α) : List α → List α
  | [] => []
  | [x] => [f x]
  | x :: y :: rest => x :: setLast f (y :: rest)

inductive CompileMode where
  | concatenate
  | separate
deriving DecidableEq, Repr

/-- The first pass of `FSA::compile` (fsa.rs lines 179–203): walks the
fragments with a running state-count offset `acc`.  The source's inner
renumbering loop (lines 181–188) iterates each state's transitions
*immutably*, builds the shifted copy `new_next` of every target set and then
drops it without writing it back, so the pass changes no transition targets;
the only actual write is the `Concatenate`-mode epsilon transition from each
fragment's last state to the next fragment's entry `acc + len`. -/
def compileGo {τ : Type} (mode : CompileMode) (acc : Nat) :
    List (RFSA τ) → List (RFSA τ)
  | [] => []
  | fsa :: rest =>
      let len := fsa.states.length
      let states :=
        match mode with
        | .concatenate =>
            setLast (fun last =>
              { last with transitions := hmInsert none {acc + len} last.transitions })
              fsa.states
        | .separate => fsa.states
      ⟨states⟩ :: compileGo mode (acc + len) rest

/-- `FSA::compile`: the offset pass, then removal of the epsilon transition
from the very last state, then flattening into a single automaton. -/
def RFSA.compile {τ : Type} (fsas : List (RFSA τ)) (mode : CompileMode) :
    RFSA τ :=
  let fsas := compileGo mode 0 fsas
  let fsas := setLast (fun fsa =>
    (⟨setLast (fun s => { s with transitions := hmRemove none s.transitions })
      fsa.states⟩ : RFSA τ)) fsas
  ⟨(fsas.map (fun f => f.states)).flatten⟩

/-- `usize::MAX`, the value `0usize.wrapping_sub(1)` takes. -/
def usizeMax : Nat := 2 ^ 64 - 1

/-- One iteration of the bounded-`Repetition` loop of `mir_to_fsa_vec`
(`for i in *min..=*max`): compute
`let state = (i + 1) as usize * len - 1;` — the loop index `i` is a `u16`,
so `i + 1` wraps at `2^16`, and the `usize` subtraction wraps to
`usize::MAX` when the product is `0` — then overwrite that state's epsilon
transition with `{state + 1, last_state}`.  The indexing
`fsa.states[state]` panics (`none`) when `state` is out of bounds. -/
def repetitionStep {τ : Type} (len lastState : Nat) (f : RFSA τ) (i : Nat) :
    Option (RFSA τ) :=
  let prod := ((i + 1) % 65536) * len
  let state := if prod = 0 then usizeMax else prod - 1
  if h : state < f.states.length then
    some ⟨f.states.set state
      (let old := f.states.get ⟨state, h⟩
       { old with
          transitions := hmInsert none {state + 1, lastState}
            old.transitions })⟩
  else none

/-- One iteration of the `Alternation` exit-state loop of `mir_to_fsa_vec`
(the `iter_mut().fold(last_state, ...)` at lines 111–123): decrement the
running target by the fragment's state count, then give the fragment's last
state (`unwrap` panics if the fragment is empty) an epsilon transition to
that target. -/
def altExitStep {τ : Type} (p : List (RFSA τ) × Nat) (x : RFSA τ) :
    Option (List (RFSA τ) × Nat) :=
  let acc := p.2 - x.states.length
  match x.states with
  | [] => none
  | _ :: _ => some (p.1 ++ [(⟨setLast (fun s =>
      { s with transitions := hmInsert none {acc} s.transitions })
      x.states⟩ : RFSA τ)], acc)

/-- `FSA::mir_to_fsa_vec`.  Panics are modelled by `none`:
`fsa.states[state]` with an out-of-bounds index in the `Repetition` branch,
and `states.last_mut().unwrap()` on an empty alternative in the
`Alternation` branch.  In the `Repetition` branch the loop index `i` is a
`u16`, so `i + 1` wraps at `2^16`, and the subsequent `usize` computation
`(i + 1) as usize * len - 1` wraps to `usize::MAX` when the product is `0`
(both reachable only at `max = 65535` or `len = 0`, each of which then makes
the indexing panic). -/
def mirToFsaVec {τ : Type} : MIR → Option (List (RFSA τ))
  | .category c =>
      some [⟨[RFSAState.withSingleTransition (some (.single (.category c))) 1,
        RFSAState.new]⟩]
  | .sequence cs =>
      some [⟨(cs.enum.map (fun p =>
          RFSAState.withSingleTransition (some (.single (.character p.2)))
            (p.1 + 1))) ++ [RFSAState.new]⟩]
  | .repetition regex mn mx => do
      let body ← mirToFsaVec (τ := τ) regex
      let len := (body.map (fun x => x.states.length)).sum
      let limit := match mx with | some m => m | none => mn
      let bodyExt := body ++ (List.replicate limit body).flatten
      let fsa := RFSA.compile bodyExt .concatenate
      let lastState := fsa.states.length
      match mx with
      | some mxv => do
          let fsa ← (List.range' mn (mxv + 1 - mn)).foldlM
            (repetitionStep len lastState) fsa
          some [⟨fsa.states ++ [RFSAState.new]⟩]
      | none =>
          let lastLoopInitial := fsa.states.length - len
          let fsa2 : RFSA τ := ⟨setLast (fun s =>
            { s with
               transitions := hmInsert none {lastLoopInitial, lastState}
                 s.transitions }) fsa.states⟩
          some [⟨fsa2.states ++ [RFSAState.new]⟩]
  | .alternation alternatives => do
      let subs ← alternatives.attach.mapM (fun x =>
          (mirToFsaVec (τ := τ) x.1).map (fun v => RFSA.compile v .concatenate))
      let lastState := subs.foldl (fun acc x => acc + x.states.length) 1
      let pair ← subs.foldlM altExitStep ([], lastState)
      let subs2 := pair.1
      let transition := (subs2.foldl (fun (p : Finset ℕ × Nat) x =>
          (insert p.2 p.1, p.2 + x.states.length)) (∅, 1)).1
      let firstState : RFSA τ := ⟨[RFSAState.withSingleMatcher none transition]⟩
      some [RFSA.compile (firstState :: subs2 ++ [⟨[RFSAState.new]⟩]) .separate]
  | .set alternatives =>
      let transitions := alternatives.foldl (fun m alternative =>
          hmInsert (some (.single alternative.toSingleMatcher)) {1} m) []
      some [⟨[⟨transitions, none⟩, RFSAState.new]⟩]
  | .negatedSet excluded =>
      some [⟨[RFSAState.withSingleTransition
        (some (.negatedSet (excluded.map MSetMember.toSingleMatcher))) 1,
        RFSAState.new]⟩]
  | .concatenation mirs => do
      let vecs ← mirs.attach.mapM (fun x => mirToFsaVec (τ := τ) x.1)
      some vecs.flatten
termination_by mir => sizeOf mir
decreasing_by
  all_goals simp_wf
  all_goals first
    | omega
    | (skip
       have := List.sizeOf_lt_of_mem x.2
       omega)

/-- `FSA::from_mir_composite`. -/
def fromMirComposite {τ : Type} (mir : MIR) : Option (RFSA τ) :=
  (mirToFsaVec mir).map (fun v => RFSA.compile v .concatenate)

/-- `FSA::from_mir`; `result.states.last_mut().unwrap()` panics when the
composite automaton has no states. -/
def fromMir {τ : Type} (mir : MIR) (token : τ) : Option (RFSA τ) := do
  let result ← fromMirComposite mir
  match result.states with
  | [] => none
  | _ :: _ =>
      some ⟨setLast (fun s => { s with token := some token }) result.states⟩

/-- `FSA::union` (fsa.rs lines 228–269).  The source allocates the new
start state's epsilon set as `FixedBitSet::with_capacity(0)` and then, for
every source automaton, calls `first_state_epsilon_transitions.insert(offset)`
with `offset ≥ 1` (the offset starts at `1` and only grows).
`FixedBitSet::insert` panics when the bit is not below the set's length, and
this set is never grown, so the very first loop iteration panics — modelled
by `none` — whenever the source list is nonempty; the remainder of the loop
body (offsetting and appending the source's states) is unreachable.  Only
the empty source list returns normally: no source states, and the fresh
start state carrying the still-empty epsilon set under the `None` key. -/
def RFSA.union {τ : Type} (sources : List (RFSA τ)) : Option (RFSA τ) :=
  match sources with
  | [] => some ⟨[⟨[(none, (∅ : Finset ℕ))], none⟩]⟩
  | _ :: _ => none

/-- The well-formedness premise exactly as the claim states it: all
references are eliminated (guaranteed by the `MIR` type itself, which has no
reference variant) and `Repetition.min <= max` whenever `max` is present. -/
def wfClaim : MIR → Bool
  | .repetition regex mn mx =>
      (match mx with
       | some m => decide (mn ≤ m)
       | none => true) && wfClaim regex
  | .alternation l => l.attach.all (fun x => wfClaim x.1)
  | .concatenation l => l.attach.all (fun x => wfClaim x.1)
  | _ => true
termination_by m => sizeOf m
decreasing_by
  all_goals simp_wf
  all_goals first
    | omega
    | (skip
       have := List.sizeOf_lt_of_mem x.2
       omega)

/-- The strengthened well-formedness under which construction actually never
panics: additionally every `Concatenation` node is nonempty (an empty
concatenation compiles to an automaton with no states, so the last-state
`unwrap`s panic) and every bounded repetition has `max ≤ 65534` (at
`max = 65535` the `u16` loop increment `i + 1` wraps to `0` and the automaton
indexing panics). -/
def goodMir : MIR → Bool
  | .repetition regex mn mx =>
      (match mx with
       | some m => decide (mn ≤ m ∧ m ≤ 65534)
       | none => true) && goodMir regex
  | .alternation l => l.attach.all (fun x => goodMir x.1)
  | .concatenation l => !l.isEmpty && l.attach.all (fun x => goodMir x.1)
  | _ => true
termination_by m => sizeOf m
decreasing_by
  all_goals simp_wf
  all_goals first
    | omega
    | (skip
       have := List.sizeOf_lt_of_mem x.2
       omega)


theorem setLast_length {α : Type} (f : α → α) :
    ∀ l : List α, (setLast f l).length = l.length := by
  intro l
  induction l with
  | nil => rfl
  | cons x rest ih =>
      cases rest with
      | nil => rfl
      | cons y t => simpa [setLast] using ih

theorem map_setLast {α β : Type} (f : α → α) (m : α → β)
    (hf : ∀ x, m (f x) = m x) :
    ∀ l : List α, (setLast f l).map m = l.map m := by
  intro l
  induction l with
  | nil => rfl
  | cons x rest ih =>
      cases rest with
      | nil => simp [setLast, hf]
      | cons y t => simpa [setLast] using ih

theorem compileGo_map_length {τ : Type} (mode : CompileMode) :
    ∀ (fsas : List (RFSA τ)) (acc : Nat),
      (compileGo mode acc fsas).map (fun f => f.states.length) =
        fsas.map (fun f => f.states.length) := by
  intro fsas
  induction fsas with
  | nil => intro acc; rfl
  | cons fsa rest ih =>
      intro acc
      cases mode <;>
        simp [compileGo, ih, setLast_length]

theorem compile_states_length {τ : Type} (fsas : List (RFSA τ)) (mode : CompileMode) :
    (RFSA.compile fsas mode).states.length =
      ((fsas.map (fun f => f.states.length)).sum) := by
  unfold RFSA.compile
  rw [List.length_flatten, List.map_map]
  have h1 : (List.map (List.length ∘ fun f => f.states)
      (setLast (fun fsa => (⟨setLast (fun s => { s with transitions := hmRemove none s.transitions }) fsa.states⟩ : RFSA τ))
        (compileGo mode 0 fsas))) =
      (compileGo mode 0 fsas).map (fun f => f.states.length) := by
    refine map_setLast _ _ (fun x => ?_) _
    simp [setLast_length]
  rw [h1, compileGo_map_length]

theorem mapM_some_of_all {α β : Type} (f : α → Option β) (P : β → Prop) :
    ∀ (l : List α), (∀ x ∈ l, ∃ y, f x = some y ∧ P y) →
    ∃ ys, l.mapM f = some ys ∧ ys.length = l.length ∧ ∀ y ∈ ys, P y := by
  intro l
  induction l with
  | nil => intro _; exact ⟨[], rfl, rfl, by simp⟩
  | cons x xs ih =>
      intro h
      obtain ⟨y, hy, hPy⟩ := h x (by simp)
      obtain ⟨ys, hys, hlen, hAll⟩ := ih (fun a ha => h a (by simp [ha]))
      refine ⟨y :: ys, ?_, by simp [hlen], ?_⟩
      · rw [List.mapM_cons, hy, hys]; rfl
      · intro z hz
        rcases List.mem_cons.mp hz with hz | hz
        · exact hz ▸ hPy
        · exact hAll z hz

theorem foldlM_some_of_inv {α β : Type} (step : α → β → Option α) (P : α → Prop) :
    ∀ (l : List β), (∀ a b, P a → b ∈ l → ∃ a2, step a b = some a2 ∧ P a2) →
    ∀ a0, P a0 → ∃ a, l.foldlM step a0 = some a ∧ P a := by
  intro l
  induction l with
  | nil => intro _ a0 h0; exact ⟨a0, rfl, h0⟩
  | cons b bs ih =>
      intro h a0 h0
      obtain ⟨a1, ha1, hP1⟩ := h a0 b h0 (by simp)
      obtain ⟨a, ha, hP⟩ := ih (fun x y hx hy => h x y hx (by simp [hy])) a1 hP1
      refine ⟨a, ?_, hP⟩
      rw [List.foldlM_cons, ha1]
      exact ha

theorem sum_pos_of_ne_nil {τ : Type} (l : List (RFSA τ)) (hne : l ≠ [])
    (hall : ∀ fsa ∈ l, fsa.states ≠ []) :
    1 ≤ ((l.map (fun f => f.states.length)).sum) := by
  cases l with
  | nil => exact absurd rfl hne
  | cons f rest =>
      have : f.states.length ≠ 0 := by
        intro h0
        exact hall f (by simp) (List.eq_nil_of_length_eq_zero h0)
      simp only [List.map_cons, List.sum_cons]
      omega

theorem replicate_flatten_map_sum {τ : Type} (body : List (RFSA τ)) :
    ∀ k : Nat,
      (((List.replicate k body).flatten.map (fun f => f.states.length)).sum) =
        k * ((body.map (fun f => f.states.length)).sum) := by
  intro k
  induction k with
  | zero => simp
  | succ k ih =>
      rw [List.replicate_succ, List.flatten_cons, List.map_append,
        List.sum_append, ih, Nat.succ_mul]
      omega

theorem bodyExt_map_sum {τ : Type} (body : List (RFSA τ)) (k : Nat) :
    (((body ++ (List.replicate k body).flatten).map
        (fun f => f.states.length)).sum) =
      (k + 1) * ((body.map (fun f => f.states.length)).sum) := by
  rw [List.map_append, List.sum_append, replicate_flatten_map_sum,
    Nat.succ_mul]
  omega


theorem goodMir_rep {regex : MIR} {mn : Nat} {mx : Option Nat}
    (h : goodMir (.repetition regex mn mx) = true) :
    goodMir regex = true ∧ ∀ m, mx = some m → mn ≤ m ∧ m ≤ 65534 := by
  unfold goodMir at h
  rw [Bool.and_eq_true] at h
  refine ⟨h.2, ?_⟩
  intro m hm
  subst hm
  simpa using h.1

theorem goodMir_alt {l : List MIR} (h : goodMir (.alternation l) = true) :
    ∀ m ∈ l, goodMir m = true := by
  intro m hm
  unfold goodMir at h
  rw [List.all_eq_true] at h
  exact h ⟨m, hm⟩ (List.mem_attach _ _)

theorem goodMir_concat {l : List MIR} (h : goodMir (.concatenation l) = true) :
    l ≠ [] ∧ ∀ m ∈ l, goodMir m = true := by
  unfold goodMir at h
  rw [Bool.and_eq_true, List.all_eq_true] at h
  refine ⟨?_, ?_⟩
  · intro hnil
    subst hnil
    simpa using h.1
  · intro m hm
    exact h.2 ⟨m, hm⟩ (List.mem_attach _ _)

theorem mirToFsaVec_good {τ : Type} :
    ∀ (n : Nat) (mir : MIR), sizeOf mir ≤ n → goodMir mir = true →
      ∃ l, mirToFsaVec (τ := τ) mir = some l ∧ l ≠ [] ∧
        ∀ fsa ∈ l, fsa.states ≠ [] := by
  intro n
  induction n with
  | zero =>
      intro mir hsz
      exfalso
      have h1 : 0 < sizeOf mir := by cases mir <;> simp_arith
      omega
  | succ n ih =>
      intro mir hsz hgood
      cases mir with
      | category c =>
          have heq : mirToFsaVec (τ := τ) (.category c) =
              some [⟨[RFSAState.withSingleTransition
                (some (.single (.category c))) 1, RFSAState.new]⟩] := by
            simp only [mirToFsaVec]
          refine ⟨_, heq, by simp, ?_⟩
          intro fsa hf
          rw [List.mem_singleton] at hf
          subst hf
          simp
      | sequence cs =>
          have heq : mirToFsaVec (τ := τ) (.sequence cs) =
              some [⟨(cs.enum.map (fun p =>
                RFSAState.withSingleTransition
                  (some (.single (.character p.2))) (p.1 + 1))) ++
                [RFSAState.new]⟩] := by
            simp only [mirToFsaVec]
          refine ⟨_, heq, by simp, ?_⟩
          intro fsa hf
          rw [List.mem_singleton] at hf
          subst hf
          simp
      | set members =>
          have heq : mirToFsaVec (τ := τ) (.set members) =
              some [⟨[⟨members.foldl (fun m alternative =>
                hmInsert (some (.single alternative.toSingleMatcher)) {1} m) [],
                none⟩, RFSAState.new]⟩] := by
            simp only [mirToFsaVec]
          refine ⟨_, heq, by simp, ?_⟩
          intro fsa hf
          rw [List.mem_singleton] at hf
          subst hf
          simp
      | negatedSet members =>
          have heq : mirToFsaVec (τ := τ) (.negatedSet members) =
              some [⟨[RFSAState.withSingleTransition
                (some (.negatedSet (members.map MSetMember.toSingleMatcher))) 1,
                RFSAState.new]⟩] := by
            simp only [mirToFsaVec]
          refine ⟨_, heq, by simp, ?_⟩
          intro fsa hf
          rw [List.mem_singleton] at hf
          subst hf
          simp
      | concatenation mirs =>
          obtain ⟨hne, hall⟩ := goodMir_concat hgood
          have hmem : ∀ x ∈ mirs.attach, ∃ y,
              mirToFsaVec (τ := τ) x.1 = some y ∧
              (y ≠ [] ∧ ∀ fsa ∈ y, fsa.states ≠ []) := by
            intro x _
            refine ih x.1 ?_ (hall x.1 x.2)
            have h1 := List.sizeOf_lt_of_mem x.2
            have h2 : sizeOf (MIR.concatenation mirs) = 1 + sizeOf mirs := by simp
            omega
          obtain ⟨ys, hys, hlen, hAll⟩ :=
            mapM_some_of_all (fun x => mirToFsaVec (τ := τ) x.1) _ mirs.attach hmem
          have heq : mirToFsaVec (τ := τ) (.concatenation mirs) =
              some ys.flatten := by
            simp only [mirToFsaVec]
            rw [hys]
            rfl
          refine ⟨ys.flatten, heq, ?_, ?_⟩
          · intro hflat
            rw [List.flatten_eq_nil_iff] at hflat
            cases hys2 : ys with
            | nil =>
                rw [hys2] at hlen
                simp at hlen
                exact hne (List.eq_nil_of_length_eq_zero hlen.symm)
            | cons y t =>
                subst hys2
                exact (hAll y (by simp)).1 (hflat y (by simp))
          · intro fsa hf
            rw [List.mem_flatten] at hf
            obtain ⟨y, hy, hfy⟩ := hf
            exact (hAll y hy).2 fsa hfy
      | alternation alts =>
          have hall := goodMir_alt hgood
          have hmem : ∀ x ∈ alts.attach, ∃ y,
              (mirToFsaVec (τ := τ) x.1).map
                (fun v => RFSA.compile v .concatenate) = some y ∧
              y.states ≠ [] := by
            intro x _
            obtain ⟨v, hv, hvne, hvst⟩ := ih x.1 (by
              have h1 := List.sizeOf_lt_of_mem x.2
              have h2 : sizeOf (MIR.alternation alts) = 1 + sizeOf alts := by simp
              omega) (hall x.1 x.2)
            refine ⟨RFSA.compile v .concatenate, by rw [hv]; rfl, ?_⟩
            intro hempty
            have hlen := compile_states_length v CompileMode.concatenate
            rw [hempty] at hlen
            have := sum_pos_of_ne_nil v hvne hvst
            simp at hlen
            omega
          obtain ⟨subs, hsubs, hslen, hsAll⟩ :=
            mapM_some_of_all
              (fun x => (mirToFsaVec (τ := τ) x.1).map
                (fun v => RFSA.compile v .concatenate))
              _ alts.attach hmem
          have hfold : ∀ (p : List (RFSA τ) × Nat) (x : RFSA τ),
              True → x ∈ subs → ∃ p2, altExitStep p x = some p2 ∧ True := by
            intro p x _ hx
            have hxne := hsAll x hx
            unfold altExitStep
            cases hxs : x.states with
            | nil => exact absurd hxs hxne
            | cons a b => exact ⟨_, rfl, trivial⟩
          obtain ⟨pair, hpair, -⟩ :=
            foldlM_some_of_inv altExitStep (fun _ => True) subs hfold
              ([], subs.foldl (fun acc x => acc + x.states.length) 1) trivial
          have heq : mirToFsaVec (τ := τ) (.alternation alts) =
              some [RFSA.compile
                ((⟨[RFSAState.withSingleMatcher none
                    ((pair.1.foldl (fun (p : Finset ℕ × Nat) x =>
                      (insert p.2 p.1, p.2 + x.states.length)) (∅, 1)).1)]⟩ : RFSA τ)
                  :: pair.1 ++ [⟨[RFSAState.new]⟩]) .separate] := by
            simp only [mirToFsaVec]
            rw [hsubs]
            show Option.bind (subs.foldlM altExitStep
              ([], subs.foldl (fun acc x => acc + x.states.length) 1)) _ = _
            rw [hpair]
            rfl
          refine ⟨_, heq, by simp, ?_⟩
          intro fsa hf
          rw [List.mem_singleton] at hf
          subst hf
          intro hempty
          have hlen := compile_states_length
            ((⟨[RFSAState.withSingleMatcher none
                ((pair.1.foldl (fun (p : Finset ℕ × Nat) x =>
                  (insert p.2 p.1, p.2 + x.states.length)) (∅, 1)).1)]⟩ : RFSA τ)
              :: pair.1 ++ [⟨[RFSAState.new]⟩]) CompileMode.separate
          rw [hempty] at hlen
          simp at hlen
          omega
      | repetition regex mn mx =>
          obtain ⟨hgr, hbounds⟩ := goodMir_rep hgood
          obtain ⟨body, hbody, hbne, hbst⟩ := ih regex (by
            have h2 : sizeOf (MIR.repetition regex mn mx) =
              1 + sizeOf regex + sizeOf mn + sizeOf mx := by simp
            omega) hgr
          have hlen1 : 1 ≤ ((body.map (fun f => f.states.length)).sum) :=
            sum_pos_of_ne_nil body hbne hbst
          cases mx with
          | none =>
              obtain ⟨st, hst⟩ : ∃ st, mirToFsaVec (τ := τ)
                  (.repetition regex mn none) =
                  some [⟨st ++ [RFSAState.new]⟩] :=
                ⟨_, by simp only [mirToFsaVec]; rw [hbody]; rfl⟩
              refine ⟨_, hst, by simp, ?_⟩
              intro fsa hf
              rw [List.mem_singleton] at hf
              subst hf
              simp
          | some mxv =>
              obtain ⟨hmn, hmx⟩ := hbounds mxv rfl
              have hclen : (RFSA.compile
                  (body ++ (List.replicate mxv body).flatten)
                  CompileMode.concatenate).states.length =
                  (mxv + 1) * ((body.map (fun f => f.states.length)).sum) := by
                rw [compile_states_length, bodyExt_map_sum]
              have hstep : ∀ (f : RFSA τ) (i : Nat),
                  f.states.length =
                    (mxv + 1) * ((body.map (fun f => f.states.length)).sum) →
                  i ∈ List.range' mn (mxv + 1 - mn) →
                  ∃ f2, repetitionStep
                    ((body.map (fun x => x.states.length)).sum)
                    ((RFSA.compile (body ++ (List.replicate mxv body).flatten)
                      CompileMode.concatenate).states.length) f i = some f2 ∧
                    f2.states.length =
                      (mxv + 1) * ((body.map (fun f => f.states.length)).sum) := by
                intro f i hPf hi
                rw [List.mem_range'_1] at hi
                have hile : i ≤ mxv := by omega
                have hmod : (i + 1) % 65536 = i + 1 :=
                  Nat.mod_eq_of_lt (by omega)
                have hprodpos : 1 ≤ (i + 1) * ((body.map (fun x => x.states.length)).sum) :=
                  Nat.one_le_iff_ne_zero.mpr (Nat.mul_ne_zero (by omega) (by omega))
                have hmul : (i + 1) * ((body.map (fun x => x.states.length)).sum) ≤
                    (mxv + 1) * ((body.map (fun x => x.states.length)).sum) :=
                  Nat.mul_le_mul_right _ (by omega)
                simp only [repetitionStep]
                rw [hmod]
                have hne0 : ¬((i + 1) * ((body.map (fun x => x.states.length)).sum) = 0) := by
                  omega
                rw [if_neg hne0]
                have hidx : (i + 1) * ((body.map (fun x => x.states.length)).sum) - 1 <
                    f.states.length := by
                  rw [hPf]
                  omega
                rw [dif_pos hidx]
                refine ⟨_, rfl, ?_⟩
                simp [List.length_set, hPf]
              obtain ⟨F, hF, hPF⟩ := foldlM_some_of_inv
                (repetitionStep ((body.map (fun x => x.states.length)).sum)
                  ((RFSA.compile (body ++ (List.replicate mxv body).flatten)
                    CompileMode.concatenate).states.length))
                (fun f => f.states.length =
                  (mxv + 1) * ((body.map (fun f => f.states.length)).sum))
                (List.range' mn (mxv + 1 - mn)) hstep
                (RFSA.compile (body ++ (List.replicate mxv body).flatten)
                  CompileMode.concatenate) hclen
              have heq : mirToFsaVec (τ := τ)
                  (.repetition regex mn (some mxv)) =
                  some [⟨F.states ++ [RFSAState.new]⟩] := by
                simp only [mirToFsaVec]
                rw [hbody]
                show Option.bind ((List.range' mn (mxv + 1 - mn)).foldlM
                  (repetitionStep ((body.map (fun x => x.states.length)).sum)
                    ((RFSA.compile (body ++ (List.replicate mxv body).flatten)
                      CompileMode.concatenate).states.length))
                  (RFSA.compile (body ++ (List.replicate mxv body).flatten)
                    CompileMode.concatenate)) _ = _
                rw [hF]
                rfl
              refine ⟨_, heq, by simp, ?_⟩
              intro fsa hf
              rw [List.mem_singleton] at hf
              subst hf
              simp


theorem fromMir_isSome {τ : Type} (mir : MIR) (h : goodMir mir = true) (tok : τ) :
    (fromMir mir tok).isSome := by
  obtain ⟨l, hl, hne, hst⟩ := mirToFsaVec_good (sizeOf mir) mir le_rfl h
  have hlen := compile_states_length l CompileMode.concatenate
  have hpos := sum_pos_of_ne_nil l hne hst
  cases hcs : (RFSA.compile l CompileMode.concatenate).states with
  | nil =>
      exfalso
      rw [hcs] at hlen
      simp at hlen
      omega
  | cons a b =>
      unfold fromMir fromMirComposite
      rw [hl]
      show (match (RFSA.compile l CompileMode.concatenate).states with
        | [] => (none : Option (RFSA τ))
        | _ :: _ => some ⟨setLast (fun s => { s with token := some tok })
            (RFSA.compile l CompileMode.concatenate).states⟩).isSome = true
      rw [hcs]
      rfl

/-! ## Claim C2 -/

/-- C2: contrary to the claim, the construction panics on well-formed
input, in two independent ways.  `FSA::union` panics on *every* nonempty
source list: its start state's epsilon bit-set is created with capacity 0
and `FixedBitSet::insert` panics out of bounds before the first source is
even processed.  `FSA::from_mir` panics on the well-formed tree
`Concatenation([])` (the composite automaton has no states, so
`last_mut().unwrap()` unwraps `None`).  `from_mir` does return normally on
every well-formed tree whose concatenations are all nonempty and whose
bounded repetitions have `max ≤ 65534` (at `max = 65535` the `u16` loop
increment wraps and the state indexing panics). -/
theorem c2_union_always_panics :
    (∀ (sources : List (RFSA Nat)), sources ≠ [] →
      RFSA.union sources = none) ∧
    (wfClaim (.concatenation []) = true ∧
      fromMir (τ := Nat) (.concatenation []) 0 = none) ∧
    (∀ (mir : MIR), goodMir mir = true →
      (fromMir (τ := Nat) mir 0).isSome = true) := by
  refine ⟨?_, ⟨?_, ?_⟩, ?_⟩
  · intro sources hne
    match sources, hne with
    | s :: ss, _ => rfl
  · unfold wfClaim
    simp
  · simp [fromMir, fromMirComposite, mirToFsaVec, RFSA.compile, compileGo,
      setLast, List.mapM.loop]
  · intro mir hg
    exact fromMir_isSome mir hg 0

/-- Witness for `c2_union_always_panics`: the union of one single-state
automaton panics, while `from_mir` succeeds on `Sequence("ab")`. -/
theorem c2_union_always_panics_witness :
    (([⟨[⟨[], some 0⟩]⟩] : List (RFSA Nat)) ≠ [] ∧
      RFSA.union ([⟨[⟨[], some 0⟩]⟩] : List (RFSA Nat)) = none) ∧
    (goodMir (.sequence ['a', 'b']) = true ∧
      (fromMir (τ := Nat) (.sequence ['a', 'b']) 0).isSome = true) :=
  ⟨⟨by simp, c2_union_always_panics.1 [⟨[⟨[], some 0⟩]⟩] (by simp)⟩,
   ⟨by unfold goodMir; rfl,
    c2_union_always_panics.2.2 (.sequence ['a', 'b'])
      (by unfold goodMir; rfl)⟩⟩

/-! ## Claim C3 -/

/-- C3: the offset pass of `FSA::compile` computes each renumbered target
set and discards it (fsa.rs lines 181–188 iterate immutably and never write
`new_next` back), so spliced fragments keep their *local* transition
targets.  For `Concatenation([Sequence("a"), Sequence("b")])` the second
fragment occupies states 2 and 3, but its `'b'` transition still points at
state 1 — a state of the first fragment — instead of its own relocated exit
state 3.  (The epsilon transition from state 1 to state 2 *is* written with
the correct global index, and the final state carries the token.) -/
theorem c3_offsets_discarded :
    fromMir (τ := Nat) (.concatenation [.sequence ['a'], .sequence ['b']]) 0 =
      some ⟨[⟨[(some (.single (.character 'a')), {1})], none⟩,
             ⟨[(none, {2})], none⟩,
             ⟨[(some (.single (.character 'b')), {1})], none⟩,
             ⟨[], some 0⟩]⟩ ∧
    ({1} : Finset ℕ) ≠ {3} := by
  constructor
  · simp [fromMir, fromMirComposite, mirToFsaVec, RFSA.compile, compileGo,
      setLast, List.mapM.loop, hmInsert, hmRemove, RFSAState.new,
      RFSAState.withSingleTransition, List.enum, List.enumFrom]
  · decide


/-! ## `turn_utils::position` and `turn_regex_syntax::lexer`

The `TextReader` is modelled by the pair of the remaining input characters
and the current `Position`; `peek` is the head of the list and `next`
consumes it while advancing the position.  The `Token` wrapper (span and
input slice) is not modelled: the theorems below are about the token
*values*, and the string slices carried by `Sequence`/`Subexpression`
terminals are represented by their character lists.  On a lexical error the
helpers return only the error (the reader state after an error is not
consulted by any claim). -/

/-- `turn_utils::position::Position`. -/
structure Position where
  row : Nat
  col : Nat
  index : Nat
deriving DecidableEq, Repr

/-- `Position::default()` / `Position::new()`. -/
def Position.start : Position := ⟨1, 1, 0⟩

/-- `Position::advance`: a newline increments the row and resets the column;
`index` advances by the character's UTF-8 byte width. -/
def Position.advance (p : Position) (c : Char) : Position :=
  if c = '\n' then ⟨p.row + 1, 1, p.index + c.utf8Size⟩
  else ⟨p.row, p.col + 1, p.index + c.utf8Size⟩

/-- `turn_regex_syntax::hir::SetMember` (the `Category` name as characters). -/
inductive HSetMember where
  | character : Char → HSetMember
  | category : List Char → HSetMember
deriving DecidableEq, Repr

/-- `turn_regex_syntax::lexer::RegexTerminal`. -/
inductive RegexTerminal where
  | sequence : List Char → RegexTerminal
  | anyChar
  | repetition : Nat → Option Nat → RegexTerminal
  | set : List HSetMember → RegexTerminal
  | negatedSet : List HSetMember → RegexTerminal
  | alternation
  | lParenthesis
  | rParenthesis
  | subexpression : List Char → RegexTerminal
deriving DecidableEq, Repr

/-- `turn_regex_syntax::lexer::LexicalError`. -/
inductive LexicalError where
  | unclosedSet : Position → LexicalError
  | unclosedSubexpression : Position → LexicalError
  | unclosedRepetition : Position → LexicalError
  | invalidRepetitionRange : Nat → Nat → LexicalError
  | invalidRepetitionCharacter : Position → Char → LexicalError
  | invalidEscape : Position → Option Char → LexicalError
  | invalidSetEscape : Position → Char → LexicalError
  | rangeIntegerOverflow : Position → LexicalError
deriving DecidableEq, Repr

/-- `char::to_digit(10).unwrap()` for an ASCII digit. -/
def digitVal (c : Char) : Nat := c.toNat - '0'.toNat

/-- The accumulation loop of `Lexer::integer`.
`number.checked_mul(10).and_then(|x| x.checked_add(d))` on `u16` fails
exactly when `10 * number + d` exceeds `u16::MAX = 65535`; the failure is
reported at `errPos`, the `position` argument of `integer`. -/
def integerGo (errPos : Position) (n : Nat) (pos : Position) :
    List Char → Except LexicalError (Nat × Position × List Char)
  | c :: cs =>
      if isDigit10 c then
        if 10 * n + digitVal c ≤ 65535 then
          integerGo errPos (10 * n + digitVal c) (pos.advance c) cs
        else .error (.rangeIntegerOverflow errPos)
      else .ok (n, pos, c :: cs)
  | [] => .ok (n, pos, [])

/-- `Lexer::integer(position)`: peek; a leading non-digit returns
`Ok(None)` without consuming anything. -/
def integer (errPos : Position) (pos : Position) (input : List Char) :
    Except LexicalError (Option Nat × Position × List Char) :=
  match input with
  | c :: cs =>
      if isDigit10 c then
        (integerGo errPos (digitVal c) (pos.advance c) cs).map
          (fun r => (some r.1, r.2))
      else .ok (none, pos, input)
  | [] => .ok (none, pos, input)

/-- `Lexer::repetition(position)`: `position` is the opening brace's
position (used by `UnclosedRepetition` and by the first bound's overflow
error); `pos`/`input` are the reader state just after the opening brace. -/
def repetition (position : Position) (pos : Position) (input : List Char) :
    Except LexicalError (RegexTerminal × Position × List Char) := do
  let r1 ← integer position pos input
  match r1.2.2 with
  | '-' :: rest =>
      let pos2 := r1.2.1.advance '-'
      let r2 ← integer pos2 pos2 rest
      match r2.2.2 with
      | '\x7d' :: rest3 =>
          let mn := r1.1.getD 0
          match r2.1 with
          | some mx =>
              if mn > mx then .error (.invalidRepetitionRange mn mx)
              else .ok (.repetition mn (some mx), r2.2.1.advance '\x7d', rest3)
          | none => .ok (.repetition mn none, r2.2.1.advance '\x7d', rest3)
      | c :: _ => .error (.invalidRepetitionCharacter r2.2.1 c)
      | [] => .error (.unclosedRepetition position)
  | '\x7d' :: rest =>
      let mn := r1.1.getD 0
      .ok (.repetition mn (some mn), r1.2.1.advance '\x7d', rest)
  | c :: _ => .error (.invalidRepetitionCharacter r1.2.1 c)
  | [] => .error (.unclosedRepetition position)

/-- `Lexer::escaped`; `pos`/`input` follow the consumed backslash.  The
escapable characters are the reserved punctuation set of the grammar. -/
def escapedTok (pos : Position) (input : List Char) :
    Except LexicalError (RegexTerminal × Position × List Char) :=
  match input with
  | c :: rest =>
      if c = '_' ∨ c = '*' ∨ c = '+' ∨ c = '?' ∨ c = '\x7b' ∨ c = '\x7d' ∨
          c = '\\' ∨ c = '[' ∨ c = ']' ∨ c = '|' ∨ c = '(' ∨ c = ')' ∨
          c = '<' ∨ c = '>' then
        .ok (.sequence [c], pos.advance c, rest)
      else .error (.invalidEscape (pos.advance c) (some c))
  | [] => .error (.invalidEscape pos none)

/-- The name-collection loop of `Lexer::subexpression`: consume until `>`,
returning the name characters, the position after `>` and the rest. -/
def subexpGo (pos : Position) : List Char →
    Option (List Char × Position × List Char)
  | '>' :: rest => some ([], pos.advance '>', rest)
  | c :: rest => (subexpGo (pos.advance c) rest).map (fun r => (c :: r.1, r.2))
  | [] => none

/-- `Lexer::subexpression(position)`. -/
def subexpression (position : Position) (pos : Position) (input : List Char) :
    Except LexicalError (RegexTerminal × Position × List Char) :=
  match subexpGo pos input with
  | some r => .ok (.subexpression r.1, r.2)
  | none => .error (.unclosedSubexpression position)

theorem subexpGo_length :
    ∀ (input : List Char) (pos : Position) (r : List Char × Position × List Char),
      subexpGo pos input = some r → r.2.2.length < input.length := by
  intro input
  induction input with
  | nil => intro pos r h; exact absurd h (by simp [subexpGo])
  | cons c rest ih =>
      intro pos r h
      rw [subexpGo.eq_def] at h
      split at h
      · next rest2 heq =>
          injection heq with h1 h2
          subst h2
          cases h
          simp
      · next c2 rest2 heq =>
          injection heq with h1 h2
          subst h1
          subst h2
          simp only [Option.map_eq_some'] at h
          obtain ⟨r0, hr0, hr⟩ := h
          subst hr
          have := ih _ _ hr0
          simp only [List.length_cons]
          omega
      · next heq => exact absurd heq (by simp)

/-- The member-collection loop of `Lexer::set`; `openPos` is the opening
bracket's position (used by `UnclosedSet`). -/
def setGo (openPos : Position) (members : List HSetMember) (pos : Position)
    (input : List Char) :
    Except LexicalError (List HSetMember × Position × List Char) :=
  match input with
  | ']' :: rest => .ok (members, pos.advance ']', rest)
  | '<' :: rest =>
      match hsub : subexpGo (pos.advance '<') rest with
      | some r => setGo openPos (members ++ [.category r.1]) r.2.1 r.2.2
      | none => .error (.unclosedSubexpression pos)
  | '\\' :: rest =>
      match rest with
      | c :: rest2 =>
          if c = '\\' ∨ c = '<' ∨ c = ']' then
            setGo openPos (members ++ [.character c])
              ((pos.advance '\\').advance c) rest2
          else .error (.invalidSetEscape (pos.advance '\\') c)
      | [] => .error (.unclosedSet openPos)
  | c :: rest => setGo openPos (members ++ [.character c]) (pos.advance c) rest
  | [] => .error (.unclosedSet openPos)
termination_by input.length
decreasing_by
  all_goals simp_wf
  all_goals first
    | omega
    | (skip
       have := subexpGo_length _ _ _ hsub
       try simp only [List.length_cons] at *
       omega)

/-- The reserved characters at which `Lexer::sequence` stops (peeked, not
consumed). -/
def isSequenceBreak (c : Char) : Bool :=
  c = '_' || c = '*' || c = '+' || c = '?' || c = '(' || c = ')' || c = '|' ||
  c = '\x7b' || c = '[' || c = '<' || c = '\\'

/-- The run-collection loop of `Lexer::sequence`: the maximal literal run
(the slice from the token start; `nextToken` prepends the first, already
consumed character). -/
def sequenceGo (pos : Position) : List Char → List Char × Position × List Char
  | c :: rest =>
      if isSequenceBreak c then ([], pos, c :: rest)
      else
        let r := sequenceGo (pos.advance c) rest
        (c :: r.1, r.2)
  | [] => ([], pos, [])

/-- `Lexer::next_token`: `None` at end of input, otherwise the token value
(or the lexical error) produced from the first character dispatched exactly
as in the source. -/
def nextToken (input : List Char) (pos : Position) :
    Option (Except LexicalError RegexTerminal) :=
  match input with
  | [] => none
  | c :: rest =>
      let pos1 := pos.advance c
      some (match c with
      | '_' => .ok .anyChar
      | '*' => .ok (.repetition 0 none)
      | '+' => .ok (.repetition 1 none)
      | '?' => .ok (.repetition 0 (some 1))
      | '(' => .ok .lParenthesis
      | ')' => .ok .rParenthesis
      | '|' => .ok .alternation
      | '\x7b' => (repetition pos pos1 rest).map (fun r => r.1)
      | '[' =>
          match rest with
          | '!' :: rest2 =>
              (setGo pos [] (pos1.advance '!') rest2).map
                (fun r => RegexTerminal.negatedSet r.1)
          | _ => (setGo pos [] pos1 rest).map (fun r => RegexTerminal.set r.1)
      | '<' => (subexpression pos pos1 rest).map (fun r => r.1)
      | '\\' => (escapedTok pos1 rest).map (fun r => r.1)
      | _ => .ok (.sequence (c :: (sequenceGo pos1 rest).1)))

instance {ε α : Type} [DecidableEq ε] [DecidableEq α] :
    DecidableEq (Except ε α) := fun a b =>
  match a, b with
  | .ok x, .ok y =>
      if h : x = y then isTrue (by rw [h]) else isFalse (by simp [h])
  | .error x, .error y =>
      if h : x = y then isTrue (by rw [h]) else isFalse (by simp [h])
  | .ok _, .error _ => isFalse (by simp)
  | .error _, .ok _ => isFalse (by simp)

/-- The value of a digit string under the accumulation of `Lexer::integer`,
starting from `n`. -/
def digitsValFrom (n : Nat) (ds : List Char) : Nat :=
  ds.foldl (fun a c => 10 * a + digitVal c) n

/-- The numeric value of a decimal digit string. -/
def digitsVal (ds : List Char) : Nat := digitsValFrom 0 ds


theorem digitsValFrom_cons (n : Nat) (c : Char) (ds : List Char) :
    digitsValFrom n (c :: ds) = digitsValFrom (10 * n + digitVal c) ds := rfl

theorem digitsVal_cons (c : Char) (ds : List Char) :
    digitsVal (c :: ds) = digitsValFrom (digitVal c) ds := by
  simp [digitsVal, digitsValFrom]

theorem digitsValFrom_ge (n : Nat) (ds : List Char) :
    n ≤ digitsValFrom n ds := by
  induction ds generalizing n with
  | nil => exact Nat.le_refl n
  | cons c ds ih =>
      rw [digitsValFrom_cons]
      calc n ≤ 10 * n + digitVal c := by omega
        _ ≤ digitsValFrom (10 * n + digitVal c) ds := ih _

theorem digitVal_le_nine (c : Char) (h : isDigit10 c = true) :
    digitVal c ≤ 9 := by
  simp only [isDigit10, Bool.and_eq_true, decide_eq_true_eq] at h
  obtain ⟨h1, h2⟩ := h
  simp only [digitVal]
  have ha : c.toNat ≤ 57 := h2
  have hb : 48 ≤ c.toNat := h1
  have h0 : Char.toNat '0' = 48 := by decide
  omega

/-- When the accumulated value over an all-digit prefix exceeds `u16::MAX`,
`integerGo` reports the overflow (before looking past the prefix). -/
theorem integerGo_overflow (ds : List Char) :
    ∀ (errPos : Position) (n : Nat) (pos : Position) (rest : List Char),
      (∀ c ∈ ds, isDigit10 c = true) → n ≤ 65535 →
      65535 < digitsValFrom n ds →
      integerGo errPos n pos (ds ++ rest) =
        .error (.rangeIntegerOverflow errPos) := by
  induction ds with
  | nil =>
      intro errPos n pos rest _ hle hgt
      simp [digitsValFrom] at hgt
      omega
  | cons c ds ih =>
      intro errPos n pos rest hdig hle hgt
      have hc : isDigit10 c = true := hdig c (by simp)
      rw [List.cons_append, integerGo, if_pos hc]
      by_cases hov : 10 * n + digitVal c ≤ 65535
      · rw [if_pos hov]
        exact ih errPos _ _ rest (fun x hx => hdig x (by simp [hx])) hov
          (by rwa [digitsValFrom_cons] at hgt)
      · rw [if_neg hov]

/-- When the accumulated value stays within `u16::MAX` and the input after
the digit prefix does not begin with a digit, `integerGo` consumes exactly
the prefix and returns its value. -/
theorem integerGo_ok (ds : List Char) :
    ∀ (errPos : Position) (n : Nat) (pos : Position) (rest : List Char),
      (∀ c ∈ ds, isDigit10 c = true) → digitsValFrom n ds ≤ 65535 →
      (∀ c cs, rest = c :: cs → isDigit10 c = false) →
      ∃ pos2, integerGo errPos n pos (ds ++ rest) =
        .ok (digitsValFrom n ds, pos2, rest) := by
  induction ds with
  | nil =>
      intro errPos n pos rest _ _ hrest
      refine ⟨pos, ?_⟩
      match rest with
      | [] => rfl
      | c :: cs =>
          rw [List.nil_append, integerGo, if_neg]
          · simp [digitsValFrom]
          · simp [hrest c cs rfl]
  | cons c ds ih =>
      intro errPos n pos rest hdig hle hrest
      have hc : isDigit10 c = true := hdig c (by simp)
      rw [digitsValFrom_cons] at hle
      have hstep : 10 * n + digitVal c ≤ 65535 :=
        le_trans (digitsValFrom_ge _ _) hle
      rw [List.cons_append, integerGo, if_pos hc, if_pos hstep]
      obtain ⟨pos2, hpos2⟩ :=
        ih errPos _ (pos.advance c) rest
          (fun x hx => hdig x (by simp [hx])) hle hrest
      exact ⟨pos2, by rw [hpos2, digitsValFrom_cons]⟩

/-- C8: lexing the repetition blocks behaves as specified — `"\x7b2-7\x7d"`
yields `Repetition(2, Some 7)`, `"\x7b7-2\x7d"` yields
`InvalidRepetitionRange(7, 2)`, `"\x7b5-\x7d"` yields `Repetition(5, None)`,
`"\x7b-5\x7d"` yields `Repetition(0, Some 5)`, and a (first or second) bound
whose decimal value exceeds 65535 yields `RangeIntegerOverflow`. -/
theorem c8_repetition_lexing :
    nextToken ['\x7b', '2', '-', '7', '\x7d'] Position.start =
      some (.ok (.repetition 2 (some 7))) ∧
    nextToken ['\x7b', '7', '-', '2', '\x7d'] Position.start =
      some (.error (.invalidRepetitionRange 7 2)) ∧
    nextToken ['\x7b', '5', '-', '\x7d'] Position.start =
      some (.ok (.repetition 5 none)) ∧
    nextToken ['\x7b', '-', '5', '\x7d'] Position.start =
      some (.ok (.repetition 0 (some 5))) ∧
    (∀ (ds rest : List Char), ds ≠ [] → (∀ c ∈ ds, isDigit10 c = true) →
      65535 < digitsVal ds →
      nextToken ('\x7b' :: (ds ++ rest)) Position.start =
        some (.error (.rangeIntegerOverflow Position.start))) ∧
    (∀ (ds rest : List Char), ds ≠ [] → (∀ c ∈ ds, isDigit10 c = true) →
      65535 < digitsVal ds →
      nextToken ('\x7b' :: '-' :: (ds ++ rest)) Position.start =
        some (.error (.rangeIntegerOverflow ⟨1, 3, 2⟩))) := by
  refine ⟨by decide, by decide, by decide, by decide, ?_, ?_⟩
  · intro ds rest hne hdig hgt
    match ds, hne with
    | d :: ds, _ =>
        have hd : isDigit10 d = true := hdig d (by simp)
        have hgo : integerGo Position.start (digitVal d)
            ((Position.start.advance '\x7b').advance d) (ds ++ rest) =
            .error (.rangeIntegerOverflow Position.start) :=
          integerGo_overflow ds Position.start (digitVal d) _ rest
            (fun x hx => hdig x (by simp [hx]))
            (le_trans (digitVal_le_nine d hd) (by omega))
            (by rwa [digitsVal_cons] at hgt)
        simp [nextToken, repetition, integer, hd, hgo, Except.map, bind,
          Except.bind]
  · intro ds rest hne hdig hgt
    match ds, hne with
    | d :: ds, _ =>
        have hd : isDigit10 d = true := hdig d (by simp)
        have hdash : isDigit10 '-' = false := by decide
        have hgo : integerGo (⟨1, 3, 2⟩ : Position) (digitVal d)
            ((⟨1, 3, 2⟩ : Position).advance d) (ds ++ rest) =
            .error (.rangeIntegerOverflow (⟨1, 3, 2⟩ : Position)) :=
          integerGo_overflow ds _ (digitVal d) _ rest
            (fun x hx => hdig x (by simp [hx]))
            (le_trans (digitVal_le_nine d hd) (by omega))
            (by rwa [digitsVal_cons] at hgt)
        have hpos : (Position.start.advance '\x7b').advance '-' =
            (⟨1, 3, 2⟩ : Position) := by decide
        simp [nextToken, repetition, integer, hd, hdash, hgo, hpos,
          Except.map, bind, Except.bind]

/-- C10: a repetition block with a single bound and no divider lexes as an
exact count — `"\x7bm\x7d"` yields `Repetition(m, Some m)` for every decimal
`m ≤ 65535`, and `"\x7b\x7d"` yields `Repetition(0, Some 0)`. -/
theorem c10_single_bound_repetition :
    (∀ (ds rest : List Char), ds ≠ [] → (∀ c ∈ ds, isDigit10 c = true) →
      digitsVal ds ≤ 65535 →
      nextToken ('\x7b' :: (ds ++ ('\x7d' :: rest))) Position.start =
        some (.ok (.repetition (digitsVal ds) (some (digitsVal ds))))) ∧
    nextToken ['\x7b', '\x7d'] Position.start =
      some (.ok (.repetition 0 (some 0))) := by
  refine ⟨?_, by decide⟩
  intro ds rest hne hdig hle
  match ds, hne with
  | d :: ds, _ =>
      have hd : isDigit10 d = true := hdig d (by simp)
      obtain ⟨pos2, hgo⟩ :=
        integerGo_ok ds Position.start (digitVal d)
          ((Position.start.advance '\x7b').advance d) ('\x7d' :: rest)
          (fun x hx => hdig x (by simp [hx]))
          (by rwa [digitsVal_cons] at hle)
          (fun c cs hcs => by cases hcs; decide)
      rw [digitsVal_cons]
      simp [nextToken, repetition, integer, hd, hgo, Except.map, bind,
        Except.bind]

/-- Witness for `c8_repetition_lexing`: the overflow part at the concrete
bound `65536`. -/
theorem c8_repetition_lexing_witness :
    nextToken ('\x7b' :: (['6', '5', '5', '3', '6'] ++ [])) Position.start =
      some (.error (.rangeIntegerOverflow Position.start)) :=
  c8_repetition_lexing.2.2.2.2.1 ['6', '5', '5', '3', '6'] [] (by decide)
    (by decide) (by decide)

/-- Witness for `c10_single_bound_repetition`: the block `"\x7b42\x7d"`. -/
theorem c10_single_bound_repetition_witness :
    nextToken ('\x7b' :: (['4', '2'] ++ ('\x7d' :: []))) Position.start =
      some (.ok (.repetition (digitsVal ['4', '2'])
        (some (digitsVal ['4', '2'])))) :=
  c10_single_bound_repetition.1 ['4', '2'] [] (by decide) (by decide)
    (by decide)


/-! ## `turn_regex_syntax::parser` -/

/-- `turn_regex_syntax::hir::HIR` (string slices carried as character
lists). -/
inductive HIR where
  | sequence : List Char → HIR
  | anyChar
  | subRegex : List Char → HIR
  | repetition : HIR → Nat → Option Nat → HIR
  | alternation : List HIR → HIR
  | set : List HSetMember → HIR
  | negatedSet : List HSetMember → HIR
  | concatenation : List HIR → HIR

/-- `turn_regex_syntax::parser::ParsingError`. -/
inductive ParsingError where
  | standaloneRepetition
  | unexpectedRParenthesis
deriving DecidableEq, Repr

/-- `turn_regex_syntax::parser::Error`. -/
inductive PError where
  | lexical : LexicalError → PError
  | parsing : ParsingError → PError
deriving DecidableEq, Repr

/-- `parser::match_end`. -/
def matchEnd (tok : Option (Except LexicalError RegexTerminal)) : Bool :=
  tok.isNone

/-- `parser::match_right_parenthesis`. -/
def matchRParen (tok : Option (Except LexicalError RegexTerminal)) : Bool :=
  match tok with
  | some (.ok .rParenthesis) => true
  | _ => false

/-- The common epilogue of `parse_regex_to` (lines 120–124): a single
collected regex is returned as is, any other number as a `Concatenation`. -/
def finishRegexes : List HIR → HIR
  | [r] => r
  | rs => .concatenation rs

/-- The `Alternation` push of `parse_regex_to` (lines 102–110): a right side
that is itself an `Alternation` has the left alternative prepended to its
list; any other right side forms a two-element list. -/
def mkAlternation (l r : HIR) : HIR :=
  match r with
  | .alternation alts => .alternation (l :: alts)
  | _ => .alternation [l, r]

/-- `parser::parse_regex_to`, with the iterator made explicit as the list of
remaining lexer results and the `regexes` accumulator as a parameter.  The
loop runs on `fuel` (each iteration handles one `input.next()` call);
exhausted fuel and the `token.unwrap()` panic on `None` when the terminator
rejected end-of-input are both modelled by `none`. -/
def parseRegexTo : Nat →
    (Option (Except LexicalError RegexTerminal) → Bool) →
    List (Except LexicalError RegexTerminal) → List HIR →
    Option (Except PError (HIR × List (Except LexicalError RegexTerminal)))
  | 0, _, _, _ => none
  | fuel + 1, terminate, toks, regexes =>
      if terminate toks.head? then
        some (.ok (finishRegexes regexes, toks.tail))
      else
        match toks with
        | [] => none
        | .error e :: _ => some (.error (.lexical e))
        | .ok t :: rest =>
            match t with
            | .sequence s =>
                parseRegexTo fuel terminate rest (regexes ++ [.sequence s])
            | .anyChar =>
                parseRegexTo fuel terminate rest (regexes ++ [.anyChar])
            | .repetition mn mx =>
                match regexes.getLast? with
                | none => some (.error (.parsing .standaloneRepetition))
                | some last =>
                    parseRegexTo fuel terminate rest
                      (regexes.dropLast ++ [.repetition last mn mx])
            | .set ms =>
                parseRegexTo fuel terminate rest (regexes ++ [.set ms])
            | .negatedSet ms =>
                parseRegexTo fuel terminate rest (regexes ++ [.negatedSet ms])
            | .alternation =>
                match parseRegexTo fuel terminate rest [] with
                | none => none
                | some (.error e) => some (.error e)
                | some (.ok (right, toks2)) =>
                    some (.ok (mkAlternation (finishRegexes regexes) right,
                      toks2))
            | .lParenthesis =>
                match parseRegexTo fuel matchRParen rest [] with
                | none => none
                | some (.error e) => some (.error e)
                | some (.ok (sub, toks2)) =>
                    parseRegexTo fuel terminate toks2 (regexes ++ [sub])
            | .rParenthesis =>
                some (.error (.parsing .unexpectedRParenthesis))
            | .subexpression s =>
                parseRegexTo fuel terminate rest (regexes ++ [.subRegex s])

/-- `parser::parse_regex`.  Each loop iteration consumes a token except the
final terminator check of each (nested) call, and each nested call consumes
the token that started it, so `2 * length + 2` fuel is never exhausted on
runs that return normally. -/
def parseRegex (toks : List (Except LexicalError RegexTerminal)) :
    Option (Except PError
      (HIR × List (Except LexicalError RegexTerminal))) :=
  parseRegexTo (2 * toks.length + 2) matchEnd toks []

/-- Whether the root of an HIR tree is an `Alternation` node. -/
def isAlternation : HIR → Bool
  | .alternation _ => true
  | _ => false

/-- The invariant actually maintained by the parser: in every `Alternation`
node the list has at least two elements and its *last* element is not
itself an `Alternation`. -/
def altOk : HIR → Bool
  | .sequence _ => true
  | .anyChar => true
  | .subRegex _ => true
  | .repetition r _ _ => altOk r
  | .alternation alts =>
      (2 ≤ alts.length) &&
      (match alts.getLast? with
       | some l => !(isAlternation l)
       | none => true) &&
      alts.attach.all (fun x => altOk x.1)
  | .set _ => true
  | .negatedSet _ => true
  | .concatenation l => l.attach.all (fun x => altOk x.1)
termination_by h => sizeOf h
decreasing_by
  all_goals simp_wf
  all_goals first
    | omega
    | (skip
       have := List.sizeOf_lt_of_mem x.2
       omega)

/-- The property claimed of the parser output: no `Alternation` node has
an `Alternation` node as its last immediate element. -/
def flatLastAlt : HIR → Bool
  | .sequence _ => true
  | .anyChar => true
  | .subRegex _ => true
  | .repetition r _ _ => flatLastAlt r
  | .alternation alts =>
      (match alts.getLast? with
       | some l => !(isAlternation l)
       | none => true) &&
      alts.attach.all (fun x => flatLastAlt x.1)
  | .set _ => true
  | .negatedSet _ => true
  | .concatenation l => l.attach.all (fun x => flatLastAlt x.1)
termination_by h => sizeOf h
decreasing_by
  all_goals simp_wf
  all_goals first
    | omega
    | (skip
       have := List.sizeOf_lt_of_mem x.2
       omega)

theorem altOk_flatLastAlt :
    ∀ (n : Nat) (h : HIR), sizeOf h ≤ n → altOk h = true →
      flatLastAlt h = true := by
  intro n
  induction n with
  | zero => intro h hle; cases h <;> simp at hle
  | succ n ih =>
      intro h hle hok
      cases h with
      | sequence s => unfold flatLastAlt; rfl
      | anyChar => unfold flatLastAlt; rfl
      | subRegex s => unfold flatLastAlt; rfl
      | set ms => unfold flatLastAlt; rfl
      | negatedSet ms => unfold flatLastAlt; rfl
      | repetition r mn mx =>
          unfold altOk at hok
          unfold flatLastAlt
          exact ih r (by simp at hle; omega) hok
      | alternation alts =>
          unfold altOk at hok
          unfold flatLastAlt
          simp only [Bool.and_eq_true, List.all_eq_true] at hok ⊢
          obtain ⟨⟨_, hlast⟩, hall⟩ := hok
          refine ⟨hlast, ?_⟩
          intro x hx
          have hszx := List.sizeOf_lt_of_mem x.2
          have hsz : sizeOf (HIR.alternation alts) = 1 + sizeOf alts := by
            simp
          exact ih x.1 (by omega) (hall x hx)
      | concatenation l =>
          unfold altOk at hok
          unfold flatLastAlt
          simp only [List.all_eq_true] at hok ⊢
          intro x hx
          have hszx := List.sizeOf_lt_of_mem x.2
          have hsz : sizeOf (HIR.concatenation l) = 1 + sizeOf l := by simp
          exact ih x.1 (by omega) (hok x hx)

theorem getLast?_cons_of_ne_nil {α : Type} (a : α) (l : List α)
    (h : l ≠ []) : (a :: l).getLast? = l.getLast? := by
  cases l with
  | nil => exact absurd rfl h
  | cons b m => exact List.getLast?_cons_cons

theorem finishRegexes_altOk (rs : List HIR)
    (h : ∀ r ∈ rs, altOk r = true) : altOk (finishRegexes rs) = true := by
  match rs with
  | [r] => exact h r (by simp)
  | [] =>
      unfold finishRegexes altOk
      simp
  | a :: b :: rest =>
      unfold finishRegexes altOk
      simp only [List.all_eq_true]
      intro x _
      exact h x.1 x.2

theorem mkAlternation_altOk (l r : HIR) (hl : altOk l = true)
    (hr : altOk r = true) : altOk (mkAlternation l r) = true := by
  match r with
  | .alternation alts =>
      unfold mkAlternation
      unfold altOk at hr ⊢
      simp only [Bool.and_eq_true, List.all_eq_true, decide_eq_true_eq]
        at hr ⊢
      obtain ⟨⟨hlen, hlast⟩, hall⟩ := hr
      have hne : alts ≠ [] := by
        intro hnil; rw [hnil] at hlen; simp at hlen
      refine ⟨⟨by simp; omega, ?_⟩, ?_⟩
      · rw [getLast?_cons_of_ne_nil l alts hne]
        exact hlast
      · intro x hx
        have hmem := x.2
        simp only [List.mem_cons] at hmem
        rcases hmem with hmem | hmem
        · rw [hmem]; exact hl
        · exact hall ⟨x.1, hmem⟩ (List.mem_attach _ _)
  | .sequence s =>
      unfold mkAlternation altOk
      simp only [Bool.and_eq_true, List.all_eq_true, decide_eq_true_eq]
      refine ⟨⟨by simp, by simp [isAlternation]⟩, ?_⟩
      intro x hx
      have hmem := x.2
      simp only [List.mem_cons, List.mem_singleton] at hmem
      rcases hmem with hmem | hmem | hmem
      · rw [hmem]; exact hl
      · rw [hmem]; exact hr
      · exact absurd hmem (by simp)
  | .anyChar =>
      unfold mkAlternation altOk
      simp only [Bool.and_eq_true, List.all_eq_true, decide_eq_true_eq]
      refine ⟨⟨by simp, by simp [isAlternation]⟩, ?_⟩
      intro x hx
      have hmem := x.2
      simp only [List.mem_cons, List.mem_singleton] at hmem
      rcases hmem with hmem | hmem | hmem
      · rw [hmem]; exact hl
      · rw [hmem]; exact hr
      · exact absurd hmem (by simp)
  | .subRegex s =>
      unfold mkAlternation altOk
      simp only [Bool.and_eq_true, List.all_eq_true, decide_eq_true_eq]
      refine ⟨⟨by simp, by simp [isAlternation]⟩, ?_⟩
      intro x hx
      have hmem := x.2
      simp only [List.mem_cons, List.mem_singleton] at hmem
      rcases hmem with hmem | hmem | hmem
      · rw [hmem]; exact hl
      · rw [hmem]; exact hr
      · exact absurd hmem (by simp)
  | .repetition a b c =>
      unfold mkAlternation altOk
      simp only [Bool.and_eq_true, List.all_eq_true, decide_eq_true_eq]
      refine ⟨⟨by simp, by simp [isAlternation]⟩, ?_⟩
      intro x hx
      have hmem := x.2
      simp only [List.mem_cons, List.mem_singleton] at hmem
      rcases hmem with hmem | hmem | hmem
      · rw [hmem]; exact hl
      · rw [hmem]; exact hr
      · exact absurd hmem (by simp)
  | .set ms =>
      unfold mkAlternation altOk
      simp only [Bool.and_eq_true, List.all_eq_true, decide_eq_true_eq]
      refine ⟨⟨by simp, by simp [isAlternation]⟩, ?_⟩
      intro x hx
      have hmem := x.2
      simp only [List.mem_cons, List.mem_singleton] at hmem
      rcases hmem with hmem | hmem | hmem
      · rw [hmem]; exact hl
      · rw [hmem]; exact hr
      · exact absurd hmem (by simp)
  | .negatedSet ms =>
      unfold mkAlternation altOk
      simp only [Bool.and_eq_true, List.all_eq_true, decide_eq_true_eq]
      refine ⟨⟨by simp, by simp [isAlternation]⟩, ?_⟩
      intro x hx
      have hmem := x.2
      simp only [List.mem_cons, List.mem_singleton] at hmem
      rcases hmem with hmem | hmem | hmem
      · rw [hmem]; exact hl
      · rw [hmem]; exact hr
      · exact absurd hmem (by simp)
  | .concatenation ls =>
      unfold mkAlternation altOk
      simp only [Bool.and_eq_true, List.all_eq_true, decide_eq_true_eq]
      refine ⟨⟨by simp, by simp [isAlternation]⟩, ?_⟩
      intro x hx
      have hmem := x.2
      simp only [List.mem_cons, List.mem_singleton] at hmem
      rcases hmem with hmem | hmem | hmem
      · rw [hmem]; exact hl
      · rw [hmem]; exact hr
      · exact absurd hmem (by simp)

theorem altOk_push :
    ∀ (r : HIR), (match r with
      | .alternation _ => False
      | .repetition _ _ _ => False
      | .concatenation _ => False
      | _ => True) → altOk r = true := by
  intro r hr
  cases r <;> first
    | (unfold altOk; rfl)
    | exact absurd hr (by simp)

theorem altOk_repetition_node (r : HIR) (mn : Nat) (mx : Option Nat) :
    altOk (HIR.repetition r mn mx) = altOk r := by
  conv_lhs => unfold altOk

theorem acc_append {rs : List HIR} (hacc : ∀ r ∈ rs, altOk r = true)
    (x : HIR) (hx : altOk x = true) : ∀ r ∈ rs ++ [x], altOk r = true := by
  intro r hr
  rw [List.mem_append] at hr
  rcases hr with hr | hr
  · exact hacc r hr
  · simp only [List.mem_singleton] at hr
    rw [hr]
    exact hx

theorem parseRegexTo_altOk :
    ∀ (fuel : Nat)
      (term : Option (Except LexicalError RegexTerminal) → Bool)
      (toks : List (Except LexicalError RegexTerminal)) (regexes : List HIR)
      (h : HIR) (rest : List (Except LexicalError RegexTerminal)),
      (∀ r ∈ regexes, altOk r = true) →
      parseRegexTo fuel term toks regexes = some (.ok (h, rest)) →
      altOk h = true := by
  intro fuel
  induction fuel with
  | zero =>
      intro term toks regexes h rest hacc hp
      exact absurd hp (by simp [parseRegexTo])
  | succ fuel ih =>
      intro term toks regexes h rest hacc hp
      unfold parseRegexTo at hp
      by_cases hterm : term toks.head? = true
      · rw [if_pos hterm] at hp
        injection hp with hp
        injection hp with hp
        have h1 : finishRegexes regexes = h := congrArg Prod.fst hp
        rw [← h1]
        exact finishRegexes_altOk regexes hacc
      · rw [if_neg hterm] at hp
        split at hp
        · exact absurd hp (by simp)
        · simp at hp
        · rename_i t rest'
          split at hp
          · exact ih _ _ _ _ _
              (acc_append hacc _ (altOk_push _ trivial)) hp
          · exact ih _ _ _ _ _
              (acc_append hacc _ (altOk_push _ trivial)) hp
          · split at hp
            · simp at hp
            · rename_i mn mx last hl
              refine ih _ _ _ _ _ ?_ hp
              intro r hr
              rw [List.mem_append] at hr
              rcases hr with hr | hr
              · exact hacc r (List.dropLast_subset _ hr)
              · simp only [List.mem_singleton] at hr
                rw [hr, altOk_repetition_node]
                exact hacc last (List.mem_of_mem_getLast? hl)
          · exact ih _ _ _ _ _
              (acc_append hacc _ (altOk_push _ trivial)) hp
          · exact ih _ _ _ _ _
              (acc_append hacc _ (altOk_push _ trivial)) hp
          · split at hp
            · exact absurd hp (by simp)
            · simp at hp
            · rename_i right toks2 hin
              injection hp with hp
              injection hp with hp
              have h1 : mkAlternation (finishRegexes regexes) right = h :=
                congrArg Prod.fst hp
              rw [← h1]
              exact mkAlternation_altOk _ _
                (finishRegexes_altOk regexes hacc)
                (ih _ _ _ _ _ (by simp) hin)
          · split at hp
            · exact absurd hp (by simp)
            · simp at hp
            · rename_i sub toks2 hin
              exact ih _ _ _ _ _
                (acc_append hacc _ (ih _ _ _ _ _ (by simp) hin)) hp
          · simp at hp
          · exact ih _ _ _ _ _
              (acc_append hacc _ (altOk_push _ trivial)) hp

/-- C7 counterexample: parsing the token stream of `(a|b)|c` succeeds and
yields an `Alternation` whose *first* immediate element is itself an
`Alternation` — the parser only flattens on the right. -/
theorem c7_counterexample :
    parseRegex [.ok .lParenthesis, .ok (.sequence ['a']), .ok .alternation,
        .ok (.sequence ['b']), .ok .rParenthesis, .ok .alternation,
        .ok (.sequence ['c'])] =
      some (.ok (.alternation [.alternation [.sequence ['a'],
        .sequence ['b']], .sequence ['c']], [])) := by
  rfl

/-- C7 (amended): whenever `parse_regex` succeeds, no `Alternation` node of
the result has an `Alternation` node as its *last* immediate element (the
flattening of line 103 only guarantees right-flatness; a parenthesised
alternation on the left stays nested). -/
theorem c7_alternation_flat_last
    (toks : List (Except LexicalError RegexTerminal)) (h : HIR)
    (rest : List (Except LexicalError RegexTerminal))
    (hp : parseRegex toks = some (.ok (h, rest))) :
    flatLastAlt h = true := by
  have hok : altOk h = true :=
    parseRegexTo_altOk _ matchEnd toks [] h rest (by simp) hp
  exact altOk_flatLastAlt (sizeOf h) h (Nat.le_refl _) hok

/-- Witness for `c7_alternation_flat_last`: the token stream of `a|b|c`. -/
theorem c7_alternation_flat_last_witness :
    flatLastAlt (.alternation [.sequence ['a'], .sequence ['b'],
      .sequence ['c']]) = true :=
  c7_alternation_flat_last
    [.ok (.sequence ['a']), .ok .alternation, .ok (.sequence ['b']),
      .ok .alternation, .ok (.sequence ['c'])]
    (.alternation [.sequence ['a'], .sequence ['b'], .sequence ['c']]) []
    (by rfl)

end Turn
